import Mathlib

/-!
Verification of the arc_raiders_items inventory-analysis core against its
specification.  The definitions below are shallow embeddings of the
TypeScript sources:

* `levenshteinDistance`, `fastPath`, `candidatesFor`, `prepareBatch`,
  `mergeResults`, `analyzeBatch` — from the `useAiVision` hook
  (`analyzeBatch` and its helpers).
* `parseQty` — the per-slot quantity extraction of the analysis loop in
  `App.tsx` (`x\s*(\d+)` first, then the last digit run, default 1).
* `cosineSimilarity` — from `worker.ts`.
* `performNMS`, `fillMissingGridSlots`, `detectInventorySlots` and their
  helpers — from `logic/blobDetector.ts`.
* `removeRectAt` — the right-click handler of `InventoryImageInput.tsx`.

JavaScript numbers are modelled by `ℚ` (all values reached by the claims
are exact decimals, so no floating-point rounding is involved), machine
bytes by `ℕ`, strings by Lean `String` (the inputs under study are ASCII,
where `toLowerCase`/`trim`/`length` agree with Lean's `toLower`/`trim`/
`length`).  JavaScript `Array.prototype.sort` (stable since ES2019) is
modelled by `List.insertionSort`, which is likewise stable.
-/

attribute [local semireducible] Rat.mul Rat.inv Rat.add Rat.sub

/-- One entry of the `ITEMS` catalog: a canonical name plus aliases. -/
structure CatalogItem where
  name : String
  aliases : List String
deriving DecidableEq, Repr

/-- The `{label, score}` analysis result exchanged with the worker. -/
structure AnalysisResult where
  label : String
  score : ℚ
deriving DecidableEq, Repr

/-- Inner cells of one row of the Levenshtein DP matrix.  Arguments: the
remaining characters of `a`, the cell to the left (`matrix[i][j-1]`), and
the previous row from position `j-1` on (`matrix[i-1][j-1]`, `matrix[i-1][j]`, ...). -/
def levCells (bc : Char) : List Char → ℕ → List ℕ → List ℕ
  | [], _, _ => []
  | ac :: as, left, p0 :: p1 :: ps =>
    let cell := if bc = ac then p0 else min (p0 + 1) (min (left + 1) (p1 + 1))
    cell :: levCells bc as cell (p1 :: ps)
  | _ :: _, _, _ => []

/-- Row `i` of the DP matrix (first entry `matrix[i][0] = i`). -/
def levRow (aChars : List Char) (bc : Char) (i : ℕ) (prev : List ℕ) : List ℕ :=
  i :: levCells bc aChars i prev

/-- `levenshteinDistance(a, b)` from `useAiVision`: the standard DP over a
`(|b|+1) × (|a|+1)` matrix, realised row by row; the result is
`matrix[b.length][a.length]`, the last cell of the final row. -/
def levenshteinDistance (a b : String) : ℕ :=
  let aChars := a.data
  let firstRow := List.range (aChars.length + 1)
  let lastRow := (b.data.foldl
    (fun (st : List ℕ × ℕ) bc => (levRow aChars bc st.2 st.1, st.2 + 1))
    (firstRow, 1)).1
  lastRow.getD aChars.length 0

/-- `Math.min(...xs)` on a non-empty list (the call sites always pass at
least the item name itself). -/
def listMinNat : List ℕ → ℕ
  | [] => 0
  | x :: xs => xs.foldl min x

/-- Whitespace test of the regex class `\s` and of `trim()` (ASCII part;
the hints under study are joins of OCR words by single spaces). -/
def isSpaceJS (c : Char) : Bool :=
  c = ' ' || c = '\t' || c = '\n' || c = '\r' || c = Char.ofNat 11 || c = Char.ofNat 12

/-- `toLowerCase()` on the ASCII strings in play, characterwise. -/
def toLowerCaseJS (s : String) : String := ⟨s.data.map Char.toLower⟩

/-- `trim()`: strip whitespace from both ends of the string. -/
def trimJS (s : String) : String :=
  ⟨((s.data.dropWhile isSpaceJS).reverse.dropWhile isSpaceJS).reverse⟩

/-- The exact/alias search of the fast path:
`ITEMS.find(item => item.name.toLowerCase() === cleanHint || (item.aliases ?? []).some(a => a.toLowerCase() === cleanHint))`. -/
def findExact (items : List CatalogItem) (cleanHint : String) : Option CatalogItem :=
  items.find? fun it =>
    toLowerCaseJS it.name = cleanHint || (it.aliases.map toLowerCaseJS).contains cleanHint

/-- `(name, dist)` pairs: for every item the minimum Levenshtein distance
from the clean hint to its lowercased name and aliases. -/
def scoredItems (items : List CatalogItem) (cleanHint : String) : List (String × ℕ) :=
  items.map fun it =>
    let candidates := toLowerCaseJS it.name :: it.aliases.map toLowerCaseJS
    (it.name, listMinNat (candidates.map fun c => levenshteinDistance cleanHint c))

/-- Comparator `(a, b) => a.dist - b.dist` as the ordering relation used by
the stable sort. -/
def distLe (p q : String × ℕ) : Prop := p.2 ≤ q.2

instance : DecidableRel distLe := fun p q => inferInstanceAs (Decidable (p.2 ≤ q.2))

instance : IsTotal (String × ℕ) distLe := ⟨fun p q => Nat.le_total p.2 q.2⟩

instance : IsTrans (String × ℕ) distLe := ⟨fun _ _ _ h h2 => Nat.le_trans h h2⟩

/-- The OCR fast path of `analyzeBatch` (steps A and B of the loop body):
exact/alias equality gives score 1.0, otherwise the distance-sorted list is
consulted, distance ≤ 2 with (name length > 4 or distance ≤ 1) gives score
0.95, otherwise no fast-path result.  This is only entered when
`hintText && hintText.length >= 3`.  (With the shipped non-empty `ITEMS`
catalog the sorted list is never empty; on an empty catalog the JavaScript
would fault on `scoredItems[0]`, a state unreachable in the program.) -/
def fastPath (items : List CatalogItem) (hintText : String) : Option AnalysisResult :=
  if 3 ≤ hintText.length then
    let cleanHint := trimJS (toLowerCaseJS hintText)
    match findExact items cleanHint with
    | some it => some ⟨it.name, 1⟩
    | none =>
      match List.insertionSort distLe (scoredItems items cleanHint) with
      | [] => none
      | best :: _ =>
        if best.2 ≤ 2 ∧ (4 < best.1.length ∨ best.2 ≤ 1) then
          some ⟨best.1, 95 / 100⟩
        else none
  else none

/-- The candidate shortlist prepared for the worker when the hint exists
but was not strong enough: the ten distance-closest names
(`scoredItems.slice(0, 10)`), or `[]` when `hintText.length <= 2`. -/
def candidatesFor (items : List CatalogItem) (hintText : String) : List String :=
  if 2 < hintText.length then
    let cleanHint := trimJS (toLowerCaseJS hintText)
    ((List.insertionSort distLe (scoredItems items cleanHint)).take 10).map Prod.fst
  else []

/-- Digit test of the regex class `\d`. -/
def isDigitChar (c : Char) : Bool := decide ('0' ≤ c) && decide (c ≤ '9')

/-- `parseInt(digits, 10)` on a run of decimal digits. -/
def digitsToNat (run : List Char) : ℕ :=
  run.foldl (fun n c => 10 * n + (c.toNat - 48)) 0

/-- First match of `/x\s*(\d+)/i`, returning the captured number.  A match
at a position requires the character `x`/`X` there, then (greedily) zero or
more whitespace characters, then at least one digit; `\s` and `\d` being
disjoint, backtracking over `\s*` can never succeed when the maximal
whitespace run is not followed by a digit, so the scan below is exactly the
regex semantics.  The overall scan is leftmost-first, as in
`hintText.match(/x\s*(\d+)/i)`. -/
def xCaptureFrom : List Char → Option ℕ
  | [] => none
  | c :: cs =>
    if c = 'x' || c = 'X' then
      let afterSpaces := cs.dropWhile isSpaceJS
      let digits := afterSpaces.takeWhile isDigitChar
      if digits.isEmpty then xCaptureFrom cs else some (digitsToNat digits)
    else xCaptureFrom cs

/-- Accumulator pass extracting all maximal digit runs, left to right
(`hintText.match(/(\d+)/g)`). -/
def digitRunsAux : List Char → List Char → List (List Char)
  | [], acc => if acc.isEmpty then [] else [acc.reverse]
  | c :: cs, acc =>
    if isDigitChar c then digitRunsAux cs (c :: acc)
    else if acc.isEmpty then digitRunsAux cs []
    else acc.reverse :: digitRunsAux cs []

/-- All maximal digit runs of the string, in order. -/
def digitRuns (s : List Char) : List (List Char) := digitRunsAux s []

/-- Per-slot quantity extraction from the analysis loop in `App.tsx`:
`/x\s*(\d+)/i` first; otherwise the last of all `/(\d+)/g` matches;
otherwise 1. -/
def parseQty (hintText : String) : ℕ :=
  match xCaptureFrom hintText.data with
  | some q => q
  | none =>
    match (digitRuns hintText.data).getLast? with
    | some run => digitsToNat run
    | none => 1

/-- Modelled from the spec: the last *standalone* integer token of the
hint, where a token is a maximal run of non-whitespace characters and a
standalone integer token is such a token consisting of digits only.  Used
to compare the specified quantity rule with the implemented one. -/
def lastStandaloneInt (hintText : String) : Option ℕ :=
  (((hintText.data.splitOnP isSpaceJS).filter
      fun tok => !tok.isEmpty && tok.all isDigitChar).getLast?).map digitsToNat

/-- The last maximal digit run, extracted independently of the
left-to-right scan: reverse the string, skip the non-digits, take the
digits, reverse back. -/
def lastDigitRun (s : List Char) : Option (List Char) :=
  let run := ((s.reverse.dropWhile fun c => !isDigitChar c).takeWhile isDigitChar).reverse
  if run.isEmpty then none else some run

/-- The quantity rule as amended: the first `x\s*(\d+)` capture, else the
value of the last maximal digit run (standalone or embedded), else 1. -/
def qtySpecAmended (hintText : String) : ℕ :=
  match xCaptureFrom hintText.data with
  | some q => q
  | none =>
    match lastDigitRun hintText.data with
    | some run => digitsToNat run
    | none => 1

/-- One input of `analyzeBatch`.  `imageData` models the outcome of
`blobToDataURL(imageBlob)`: `some base64` when the conversion resolves,
`none` when it rejects (the `catch` branch of the loop). -/
structure BatchItem where
  imageData : Option String
  hintText : String
deriving DecidableEq, Repr

/-- One element of the worker's `results` array as interpreted by the
merge step: an array of candidates, a single legacy object, or `null`. -/
inductive WorkerItemRes where
  | arr : List AnalysisResult → WorkerItemRes
  | single : AnalysisResult → WorkerItemRes
  | nullRes : WorkerItemRes
deriving DecidableEq, Repr

/-- The mutable state of the preparation loop of `analyzeBatch`. -/
structure PrepState where
  results : List (Option AnalysisResult)
  pendingIndices : List ℕ
  pendingImages : List String
  pendingCandidatesList : List (List String)
deriving DecidableEq, Repr

/-- The body of the preparation loop for input index `i`.  On a fast-path
hit the result slot is filled and the item never reaches the worker.
Otherwise `i` is pushed onto `pendingIndices` *before* the `try` block;
the base64 image and the candidate shortlist are pushed *inside* it, so a
failed conversion pushes the index but neither companion entry. -/
def prepStep (catalog : List CatalogItem) (st : PrepState) (i : ℕ) (it : BatchItem) :
    PrepState :=
  match fastPath catalog it.hintText with
  | some r => { st with results := st.results.set i (some r) }
  | none =>
    let st1 := { st with pendingIndices := st.pendingIndices ++ [i] }
    match it.imageData with
    | some base64 =>
      { st1 with
        pendingImages := st1.pendingImages ++ [base64]
        pendingCandidatesList :=
          st1.pendingCandidatesList ++ [candidatesFor catalog it.hintText] }
    | none => st1

/-- Phase 1 of `analyzeBatch`: the preparation loop over all items, starting
from `results` filled with `null`. -/
def prepareBatch (catalog : List CatalogItem) (items : List BatchItem) : PrepState :=
  items.enum.foldl (fun st p => prepStep catalog st p.1 p.2)
    ⟨List.replicate items.length none, [], [], []⟩

/-- The merge of one worker entry into `results[originalIndex]`:
a non-empty array contributes its head, a single object is taken as is,
`null` and an empty array write nothing. -/
def applyWorkerRes (results : List (Option AnalysisResult)) (originalIndex : ℕ) :
    WorkerItemRes → List (Option AnalysisResult)
  | .arr (x :: _) => results.set originalIndex (some x)
  | .arr [] => results
  | .single r => results.set originalIndex (some r)
  | .nullRes => results

/-- Phase 3 of `analyzeBatch`: `workerResult.forEach((res, idx) => ...)`,
looking up `pendingIndices[idx]` for each worker entry (an out-of-range
`idx` yields `undefined` and writes no array slot). -/
def mergeResults (results : List (Option AnalysisResult)) (pendingIndices : List ℕ)
    (workerResult : List WorkerItemRes) : List (Option AnalysisResult) :=
  workerResult.enum.foldl
    (fun res p =>
      match pendingIndices.get? p.1 with
      | some originalIndex => applyWorkerRes res originalIndex p.2
      | none => res)
    results

/-- `analyzeBatch` of the `useAiVision` hook.  The worker round trip —
`postMessage`/`onmessage` correlated by a fresh id, with the encoder free
to batch and complete out of submission order — is abstracted as a single
oracle from the submitted images and candidate lists to the response:
`none` models an error response (the resolver is called with `null`),
`some rs` a success with the per-image results `rs`. -/
def analyzeBatch (catalog : List CatalogItem)
    (worker : List String → List (List String) → Option (List WorkerItemRes))
    (items : List BatchItem) : List (Option AnalysisResult) :=
  let st := prepareBatch catalog items
  if st.pendingIndices.isEmpty then st.results
  else
    match worker st.pendingImages st.pendingCandidatesList with
    | some workerResult => mergeResults st.results st.pendingIndices workerResult
    | none => st.results

/-- Whether an item misses the fast path and is therefore sent to the
worker. -/
def isSlow (catalog : List CatalogItem) (it : BatchItem) : Bool :=
  (fastPath catalog it.hintText).isNone

/-- The specified per-item meaning of the batch response: a fast-path item
gets its text match; a slow-path item whose image converted gets the worker
response for *its own* image (the one at its position among the submitted
images); a slow-path item whose conversion failed stays `null`. -/
def expectedResultAt (catalog : List CatalogItem)
    (worker : List String → List (List String) → Option (List WorkerItemRes))
    (items : List BatchItem) (i : ℕ) : Option AnalysisResult :=
  match items.get? i with
  | none => none
  | some it =>
    match fastPath catalog it.hintText with
    | some r => some r
    | none =>
      match it.imageData with
      | none => none
      | some _ =>
        let slowItems := items.filter (isSlow catalog)
        let imgs := slowItems.filterMap BatchItem.imageData
        let cands := slowItems.filterMap
          fun j => j.imageData.map fun _ => candidatesFor catalog j.hintText
        match worker imgs cands with
        | none => none
        | some ws =>
          let k := ((items.take i).filter
            fun j => isSlow catalog j && j.imageData.isSome).length
          match ws.get? k with
          | some (.arr (x :: _)) => some x
          | some (.single r) => some r
          | _ => none

/-- `cosineSimilarity(a, b)` from `worker.ts`: a loop over
`i < Math.min(a.length, b.length)` accumulating `a[i] * b[i]`. -/
def cosineSimilarity (a b : List ℚ) : ℚ :=
  let len := min a.length b.length
  (List.range len).foldl (fun dot i => dot + a.getD i 0 * b.getD i 0) 0

/-- `Rect {x, y, width, height}` from `logic/blobDetector.ts`, with `ℚ`
coordinates (grid inference introduces halves via medians). -/
structure Rect where
  x : ℚ
  y : ℚ
  width : ℚ
  height : ℚ
deriving DecidableEq, Repr

/-- The area key of the NMS sort. -/
def rectArea (r : Rect) : ℚ := r.width * r.height

/-- The descending-area comparator `(a, b) => b.width*b.height - a.width*a.height`
as an ordering relation. -/
def areaGE (a b : Rect) : Prop := rectArea b ≤ rectArea a

instance : DecidableRel areaGE := fun a b =>
  inferInstanceAs (Decidable (rectArea b ≤ rectArea a))

instance : IsTotal Rect areaGE := ⟨fun a b => le_total (rectArea b) (rectArea a)⟩

instance : IsTrans Rect areaGE := ⟨fun _ _ _ h h2 => le_trans h2 h⟩

/-- The duplicate test of `performNMS`: positive intersection whose share of
the candidate's own area exceeds the threshold.  (The division is only
reached with `x2 > x1` and `y2 > y1`, which forces `cand.width > 0` and
`cand.height > 0`, so `candArea ≠ 0` there.) -/
def isDup (threshold : ℚ) (cand exist : Rect) : Bool :=
  let x1 := max cand.x exist.x
  let y1 := max cand.y exist.y
  let x2 := min (cand.x + cand.width) (exist.x + exist.width)
  let y2 := min (cand.y + cand.height) (exist.y + exist.height)
  if x2 > x1 ∧ y2 > y1 then
    let intersection := (x2 - x1) * (y2 - y1)
    let candArea := cand.width * cand.height
    decide (intersection / candArea > threshold)
  else false

/-- The keep loop of `performNMS` over the area-sorted candidates. -/
def nmsLoop (threshold : ℚ) : List Rect → List Rect → List Rect
  | [], uniqueSlots => uniqueSlots
  | cand :: rest, uniqueSlots =>
    if uniqueSlots.any (isDup threshold cand) then nmsLoop threshold rest uniqueSlots
    else nmsLoop threshold rest (uniqueSlots ++ [cand])

/-- `performNMS(candidates, threshold)` from `blobDetector.ts`: sort by area
descending, keep a candidate unless it duplicates an already-kept one. -/
def performNMS (candidates : List Rect) (threshold : ℚ) : List Rect :=
  nmsLoop threshold (List.insertionSort areaGE candidates) []

/-- Containment of `inner` in `outer` (as closed pixel boxes). -/
def rectContains (outer inner : Rect) : Prop :=
  outer.x ≤ inner.x ∧ outer.y ≤ inner.y ∧
  inner.x + inner.width ≤ outer.x + outer.width ∧
  inner.y + inner.height ≤ outer.y + outer.height

instance : DecidableRel rectContains := fun _ _ => instDecidableAnd

/-- `getMedian` from `blobDetector.ts`: 0 on the empty list, the middle of
the ascending sort, averaging the two middles on even length. -/
def getMedian (values : List ℚ) : ℚ :=
  if values.isEmpty then 0
  else
    let sorted := List.insertionSort (· ≤ ·) values
    let mid := sorted.length / 2
    if sorted.length % 2 = 0 then (sorted.getD (mid - 1) 0 + sorted.getD mid 0) / 2
    else sorted.getD mid 0

/-- The grouping pass of `fillMissingGridSlots`: splits the ascending
coordinate list wherever consecutive values differ by at least the
tolerance, emitting the median of each group. -/
def groupCoordsAux (tolerance : ℚ) : List ℚ → ℚ → List ℚ → List ℚ
  | [], _, currentGroup => [getMedian currentGroup.reverse]
  | c :: cs, prev, currentGroup =>
    if c - prev < tolerance then groupCoordsAux tolerance cs c (c :: currentGroup)
    else getMedian currentGroup.reverse :: groupCoordsAux tolerance cs c [c]

/-- `groupCoords(coords, tolerance)` from `fillMissingGridSlots`. -/
def groupCoords (coords : List ℚ) (tolerance : ℚ) : List ℚ :=
  match coords with
  | [] => []
  | c :: cs => groupCoordsAux tolerance cs c [c]

/-- `fillMissingGridSlots(slots, imgWidth, imgHeight)`: returns the slots
unchanged when fewer than 3 are present; otherwise infers the cell size and
the row/column guides from medians and appends one new in-bounds cell per
unoccupied guide intersection. -/
def fillMissingGridSlots (slots : List Rect) (imgWidth imgHeight : ℚ) : List Rect :=
  if slots.length < 3 then slots
  else
    let unitW := getMedian (slots.map Rect.width)
    let unitH := getMedian (slots.map Rect.height)
    let xCenters := List.insertionSort (· ≤ ·) (slots.map fun s => s.x + s.width / 2)
    let yCenters := List.insertionSort (· ≤ ·) (slots.map fun s => s.y + s.height / 2)
    let colGuides := groupCoords xCenters (unitW * (5 / 10))
    let rowGuides := groupCoords yCenters (unitH * (5 / 10))
    rowGuides.foldl
      (fun acc cy =>
        colGuides.foldl
          (fun acc2 cx =>
            let exists0 := slots.any fun s =>
              decide (|s.x + s.width / 2 - cx| < unitW * (5 / 10)) &&
              decide (|s.y + s.height / 2 - cy| < unitH * (5 / 10))
            if exists0 then acc2
            else
              let newX := cx - unitW / 2
              let newY := cy - unitH / 2
              if 0 ≤ newX ∧ 0 ≤ newY ∧ newX + unitW ≤ imgWidth ∧ newY + unitH ≤ imgHeight
              then acc2 ++ [⟨newX, newY, unitW, unitH⟩]
              else acc2)
          acc)
      slots

/-- The final row-major comparator of `detectInventorySlots`: rectangles
whose vertical difference is below 5% of the image height compare by `x`,
others by `y`. -/
def rowMajorLe (height : ℚ) (a b : Rect) : Prop :=
  if |a.y - b.y| < height * (5 / 100) then a.x ≤ b.x else a.y ≤ b.y

instance (height : ℚ) : DecidableRel (rowMajorLe height) := fun a b => by
  unfold rowMajorLe; infer_instance

/-- The decoded raster handed to `detectInventorySlots`: dimensions plus
the flat RGBA byte array (`data[4*i .. 4*i+3]` for pixel `i`). -/
structure ImageData where
  width : ℕ
  height : ℕ
  data : List ℕ

/-- Sequential reading of the RGBA quadruples `data[4i], data[4i+1],
data[4i+2]` (the alpha byte is skipped), as performed by the grayscale loop
running `i` from `0` to `width*height - 1`. -/
def toGrayscaleGo : List ℕ → List ℕ
  | r :: g :: b :: _ :: rest => (299 * r + 587 * g + 114 * b) / 1000 :: toGrayscaleGo rest
  | _ => []

/-- `toGrayscale`: per pixel `0.299 R + 0.587 G + 0.114 B`, truncated by the
`Uint8Array` store (the decimal weights sum to 1, so bytes stay in range and
the truncation is a floor, realised by the exact division by 1000).  The
loop over `i < width*height` reads the byte array in order, rendered here
as structural recursion over the RGBA list (callers pass
`data.length = 4 * width * height`). -/
def toGrayscale (data : List ℕ) (width height : ℕ) : List ℕ :=
  (toGrayscaleGo data).take (width * height)

/-- Fuelled binary search for the integer square root; the invariant is
`lo² ≤ n < hi²`. -/
def floorSqrtAux (n : ℕ) : ℕ → ℕ → ℕ → ℕ
  | 0, lo, _ => lo
  | fuel + 1, lo, hi =>
    if hi ≤ lo + 1 then lo
    else
      let mid := (lo + hi) / 2
      if mid * mid ≤ n then floorSqrtAux n fuel mid hi else floorSqrtAux n fuel lo mid

/-- `⌊Math.sqrt n⌋` on a natural number: the greatest `r` with `r² ≤ n`
(64 halvings cover every value produced by the Sobel kernels). -/
def floorSqrt (n : ℕ) : ℕ := floorSqrtAux n 64 0 (n + 1)

/-- The Sobel x-kernel, row-major. -/
def kernelX : List ℤ := [-1, 0, 1, -2, 0, 2, -1, 0, 1]

/-- The Sobel y-kernel, row-major. -/
def kernelY : List ℤ := [-1, -2, -1, 0, 0, 0, 1, 2, 1]

/-- One interior Sobel response: `min(255, sqrt(gx² + gy²))` stored into a
`Uint8Array`; on integer grayscale inputs the truncating store turns the
square root into the integer square root, and `min` commutes with the
truncation at the integer 255. -/
def sobelAt (gray : List ℕ) (width : ℕ) (x y : ℕ) : ℕ :=
  let acc := (List.range 3).foldl
    (fun (a : ℤ × ℤ) ky =>
      (List.range 3).foldl
        (fun (a2 : ℤ × ℤ) kx =>
          let val : ℤ := gray.getD ((y + ky - 1) * width + (x + kx - 1)) 0
          (a2.1 + val * kernelX.getD (ky * 3 + kx) 0,
           a2.2 + val * kernelY.getD (ky * 3 + kx) 0))
        a)
    (0, 0)
  min 255 (floorSqrt (acc.1 * acc.1 + acc.2 * acc.2).toNat)

/-- `sobel(gray, width, height)`: zero-initialised output, interior pixels
(`1 ≤ x ≤ width-2`, `1 ≤ y ≤ height-2`) get the kernel response. -/
def sobel (gray : List ℕ) (width height : ℕ) : List ℕ :=
  (List.range (width * height)).map fun idx =>
    let y := idx / width
    let x := idx % width
    if 1 ≤ x ∧ x + 1 < width ∧ 1 ≤ y ∧ y + 1 < height then sobelAt gray width x y
    else 0

/-- `dilate(data, width, height, kernelSize)`: scan all pixels and, for
each set one, write 1 to every in-bounds position of its square window in
the zero-initialised output (the scatter loop of the source, with
`ny = y + ky`, `nx = x + kx` for `ky, kx ∈ [-offset, offset]`). -/
def dilate (data : List ℕ) (width height kernelSize : ℕ) : List ℕ :=
  let offset := kernelSize / 2
  data.enum.foldl
    (fun output p =>
      if p.2 = 1 then
        let y := p.1 / width
        let x := p.1 % width
        (List.range kernelSize).foldl
          (fun o1 ky =>
            (List.range kernelSize).foldl
              (fun o2 kx =>
                let ny := y + ky
                let nx := x + kx
                if offset ≤ ny ∧ ny < height + offset ∧ offset ≤ nx ∧ nx < width + offset
                then o2.set ((ny - offset) * width + (nx - offset)) 1
                else o2)
              o1)
          output
      else output)
    (List.replicate (width * height) 0)

/-- `erode(data, width, height, kernelSize)`: zero-initialised output;
interior pixels keep 1 iff every pixel of their window is non-zero. -/
def erode (data : List ℕ) (width height kernelSize : ℕ) : List ℕ :=
  let offset := kernelSize / 2
  (List.range (width * height)).map fun idx =>
    let y := idx / width
    let x := idx % width
    if offset ≤ x ∧ x + offset < width ∧ offset ≤ y ∧ y + offset < height then
      let keep := (List.range kernelSize).all fun ky =>
        (List.range kernelSize).all fun kx =>
          decide (data.getD ((y + ky - offset) * width + (x + kx - offset)) 0 ≠ 0)
      if keep then 1 else 0
    else 0

/-- `morphClose`: dilation followed by erosion. -/
def morphClose (data : List ℕ) (width height size : ℕ) : List ℕ :=
  erode (dilate data width height size) width height size

/-- Union-find `find` with path compression, fuelled by the size of the
parent array (the source recursion terminates because the parent forest is
acyclic; the fuel is never exhausted on states built by the labelling
pass). -/
def ufFind (parent : List ℕ) (fuel : ℕ) (x : ℕ) : ℕ × List ℕ :=
  match fuel with
  | 0 => (x, parent)
  | fuel + 1 =>
    let p := parent.getD x x
    if p = x then (x, parent)
    else
      let rp := ufFind parent fuel p
      (rp.1, rp.2.set x rp.1)

/-- Union-find `unite`: link the root of `b` under the root of `a`. -/
def ufUnite (parent : List ℕ) (a b : ℕ) : List ℕ :=
  let ra := ufFind parent parent.length a
  let rb := ufFind ra.2 ra.2.length b
  if ra.1 ≠ rb.1 then rb.2.set rb.1 ra.1 else rb.2

/-- The state of the connected-component labelling pass: the per-pixel
label array, the union-find parent array (index 0 unused, as in the
JavaScript array that is only written from index 1 on), and the next free
label. -/
structure CCLState where
  labels : List ℕ
  parent : List ℕ
  nextLabel : ℕ

/-- First CCL pass of `detectInventorySlots` (step 4): row-major scan,
labels from the left/top neighbours, union on conflict. -/
def ccl (closed : List ℕ) (width height : ℕ) : CCLState :=
  (List.range (width * height)).foldl
    (fun st idx =>
      if closed.getD idx 0 = 0 then st
      else
        let x := idx % width
        let y := idx / width
        let left := if 0 < x then st.labels.getD (idx - 1) 0 else 0
        let top := if 0 < y then st.labels.getD (idx - width) 0 else 0
        if left = 0 ∧ top = 0 then
          { labels := st.labels.set idx st.nextLabel
            parent := st.parent ++ [st.nextLabel]
            nextLabel := st.nextLabel + 1 }
        else if left ≠ 0 ∧ top = 0 then { st with labels := st.labels.set idx left }
        else if left = 0 ∧ top ≠ 0 then { st with labels := st.labels.set idx top }
        else
          { st with
            labels := st.labels.set idx (min left top)
            parent := ufUnite st.parent left top })
    ⟨List.replicate (width * height) 0, [0], 1⟩

/-- Update of one blob accumulator by a pixel, exactly as in step 5 of
`detectInventorySlots`: `x`/`y` accumulate the minima while `width`/`height`
are (ab)used to accumulate the maxima — starting, however, from the
literal values `width = 1, height = 1` of the freshly inserted record
rather than from the first pixel's coordinates. -/
def blobUpdate (b : Rect) (x y : ℕ) : Rect :=
  ⟨min b.x x, min b.y y, max b.width x, max b.height y⟩

/-- Insert-or-update in the insertion-ordered association list modelling
the JavaScript `Map` of blobs. -/
def blobsInsert (blobs : List (ℕ × Rect)) (root x y : ℕ) : List (ℕ × Rect) :=
  match blobs with
  | [] => [(root, ⟨x, y, 1, 1⟩)]
  | (r, b) :: rest =>
    if r = root then (r, blobUpdate b x y) :: rest
    else (r, b) :: blobsInsert rest root x y

/-- Step 5 of `detectInventorySlots`: group labelled pixels by their root
(threading the path-compressed parent array) and accumulate per-root
extents. -/
def collectBlobs (st : CCLState) (width height : ℕ) : List (ℕ × Rect) :=
  ((List.range (width * height)).foldl
    (fun (acc : List (ℕ × Rect) × List ℕ) idx =>
      let lab := st.labels.getD idx 0
      if lab = 0 then acc
      else
        let x := idx % width
        let y := idx / width
        let rp := ufFind acc.2 acc.2.length lab
        (blobsInsert acc.1 rp.1 x y, rp.2))
    ([], st.parent)).1

/-- Step 6 of `detectInventorySlots`: turn each blob accumulator into a
rectangle `(x, y, maxX - minX + 1, maxY - minY + 1)` and filter by area and
aspect.  (In `ℚ` a zero `h` makes `aspect = 0`, which is dropped by
`aspect < 0.5` just as the JavaScript `Infinity`/`-Infinity` is dropped by
its own guard.) -/
def extractCandidates (blobs : List (ℕ × Rect)) (size : ℚ) : List Rect :=
  let minArea := size * (2 / 1000)
  let maxArea := size * (5 / 10)
  blobs.foldl
    (fun acc rb =>
      let b := rb.2
      let w := b.width - b.x + 1
      let h := b.height - b.y + 1
      let area := w * h
      if area < minArea ∨ area > maxArea then acc
      else
        let aspect := w / h
        if aspect < 5 / 10 ∨ aspect > 3 then acc
        else acc ++ [⟨b.x, b.y, w, h⟩])
    []

/-- Steps 1–6 of `detectInventorySlots`: grayscale, Sobel, binarise,
morphological closing, labelling, blob extraction, first filter. -/
def detectCandidates (imageData : ImageData) (threshold : ℕ) : List Rect :=
  let width := imageData.width
  let height := imageData.height
  let gray := toGrayscale imageData.data width height
  let edges := sobel gray width height
  let binary := edges.map fun e => if threshold < e then 1 else 0
  let closed := morphClose binary width height 5
  let st := ccl closed width height
  extractCandidates (collectBlobs st width height) ((width * height : ℕ) : ℚ)

/-- Step 7 of `detectInventorySlots`: the surviving raw detections after
the first NMS at threshold 0.6. -/
def rawDetections (imageData : ImageData) (threshold : ℕ) : List Rect :=
  performNMS (detectCandidates imageData threshold) (6 / 10)

/-- `detectInventorySlots(imageData, threshold)`: raw detections, grid
inference, final NMS at 0.5, row-major sort. -/
def detectInventorySlots (imageData : ImageData) (threshold : ℕ) : List Rect :=
  let refined := fillMissingGridSlots (rawDetections imageData threshold)
    ((imageData.width : ℚ)) ((imageData.height : ℚ))
  List.insertionSort (rowMajorLe ((imageData.height : ℚ)))
    (performNMS refined (5 / 10))

/-- The point-in-box test of the right-click handler
(`coords.x >= box.x && coords.x <= box.x + box.width && ...`). -/
def containsPoint (box : Rect) (px py : ℚ) : Bool :=
  decide (box.x ≤ px) && decide (px ≤ box.x + box.width) &&
  decide (box.y ≤ py) && decide (py ≤ box.y + box.height)

/-- `handleContextMenu` of `InventoryImageInput.tsx`: `findIndex` of the
first box containing the click, then `filter((_, idx) => idx !== clickedIndex)`;
no containing box leaves the list unchanged. -/
def removeRectAt (boxes : List Rect) (px py : ℚ) : List Rect :=
  match boxes.findIdx? (fun box => containsPoint box px py) with
  | none => boxes
  | some clickedIndex =>
    (boxes.enum.filter fun p => p.1 ≠ clickedIndex).map Prod.snd

/-- Modelled from the spec: `remove(point)` deletes the *topmost* rectangle
containing the point — the one rendered last, i.e. the containing rectangle
of greatest index. -/
def removeTopmostSpec (boxes : List Rect) (px py : ℚ) : List Rect :=
  match (boxes.enum.filter fun p => containsPoint p.2 px py).getLast? with
  | none => boxes
  | some hit => (boxes.enum.filter fun p => p.1 ≠ hit.1).map Prod.snd

/-! ### Concrete images used to exercise the segmentation pipeline -/

/-- The bright pixels of `imgC8`: an L-shaped stroke whose Sobel response
peaks at an isolated binary pixel at (5, 5). -/
def imgC8pix : List (ℕ × ℕ) := [(4, 4), (4, 5), (4, 6), (5, 4), (6, 4)]

/-- An 8×8 RGBA raster: value 57 on the pixels of `imgC8pix`, black
elsewhere, alpha 255. -/
def imgC8 : ImageData :=
  { width := 8, height := 8
    data := (List.range (8 * 8)).flatMap fun i =>
      let x := i % 8
      let y := i / 8
      let v : ℕ := if (x, y) ∈ imgC8pix then 57 else 0
      [v, v, v, 255] }

/-- The bright pixels of `imgC5`: a single pixel on the left producing a
small component, and a pixel pair on the right producing a larger one, all
on the same row. -/
def imgC5pix : List (ℕ × ℕ) := [(2, 3), (10, 3), (12, 3)]

/-- A 15×7 RGBA raster: value 100 on the pixels of `imgC5pix`, black
elsewhere, alpha 255. -/
def imgC5 : ImageData :=
  { width := 15, height := 7
    data := (List.range (15 * 7)).flatMap fun i =>
      let x := i % 15
      let y := i / 15
      let v : ℕ := if (x, y) ∈ imgC5pix then 100 else 0
      [v, v, v, 255] }

/-- The grayscale plane of `imgC5` (= `toGrayscale imgC5.data 15 7`,
proved inside the C5 counterexample). -/
def grayC5 : List ℕ := [0, 0, 0, 0, 0, 0, 0, 0, 0, 0, 0, 0, 0, 0, 0, 0, 0, 0, 0, 0, 0, 0, 0, 0, 0, 0, 0, 0, 0, 0, 0, 0, 0, 0, 0, 0, 0, 0, 0, 0, 0, 0, 0, 0, 0, 0, 0, 100, 0, 0, 0, 0, 0, 0, 0, 100, 0, 100, 0, 0, 0, 0, 0, 0, 0, 0, 0, 0, 0, 0, 0, 0, 0, 0, 0, 0, 0, 0, 0, 0, 0, 0, 0, 0, 0, 0, 0, 0, 0, 0, 0, 0, 0, 0, 0, 0, 0, 0, 0, 0, 0, 0, 0, 0, 0]

/-- The Sobel edge map of `grayC5` (= `sobel grayC5 15 7`). -/
def sobelC5 : List ℕ := [0, 0, 0, 0, 0, 0, 0, 0, 0, 0, 0, 0, 0, 0, 0, 0, 0, 0, 0, 0, 0, 0, 0, 0, 0, 0, 0, 0, 0, 0, 0, 141, 200, 141, 0, 0, 0, 0, 0, 141, 200, 200, 200, 141, 0, 0, 200, 0, 200, 0, 0, 0, 0, 0, 200, 0, 0, 0, 200, 0, 0, 141, 200, 141, 0, 0, 0, 0, 0, 141, 200, 200, 200, 141, 0, 0, 0, 0, 0, 0, 0, 0, 0, 0, 0, 0, 0, 0, 0, 0, 0, 0, 0, 0, 0, 0, 0, 0, 0, 0, 0, 0, 0, 0, 0]

/-- `sobelC5` thresholded at 150. -/
def binC5 : List ℕ := [0, 0, 0, 0, 0, 0, 0, 0, 0, 0, 0, 0, 0, 0, 0, 0, 0, 0, 0, 0, 0, 0, 0, 0, 0, 0, 0, 0, 0, 0, 0, 0, 1, 0, 0, 0, 0, 0, 0, 0, 1, 1, 1, 0, 0, 0, 1, 0, 1, 0, 0, 0, 0, 0, 1, 0, 0, 0, 1, 0, 0, 0, 1, 0, 0, 0, 0, 0, 0, 0, 1, 1, 1, 0, 0, 0, 0, 0, 0, 0, 0, 0, 0, 0, 0, 0, 0, 0, 0, 0, 0, 0, 0, 0, 0, 0, 0, 0, 0, 0, 0, 0, 0, 0, 0]

/-- `binC5` after morphological closing with kernel 5. -/
def closedC5 : List ℕ := [0, 0, 0, 0, 0, 0, 0, 0, 0, 0, 0, 0, 0, 0, 0, 0, 0, 0, 0, 0, 0, 0, 0, 0, 0, 0, 0, 0, 0, 0, 0, 0, 1, 0, 0, 0, 0, 0, 0, 0, 1, 1, 1, 0, 0, 0, 0, 1, 1, 0, 0, 0, 0, 0, 1, 1, 1, 1, 0, 0, 0, 0, 1, 0, 0, 0, 0, 0, 0, 0, 1, 1, 1, 0, 0, 0, 0, 0, 0, 0, 0, 0, 0, 0, 0, 0, 0, 0, 0, 0, 0, 0, 0, 0, 0, 0, 0, 0, 0, 0, 0, 0, 0, 0, 0]

/-- The connected-component bounding accumulators of `closedC5`
(= `collectBlobs (ccl closedC5 15 7) 15 7`). -/
def blobsC5 : List (ℕ × Rect) := [(1, ⟨2, 2, 3, 4⟩), (3, ⟨9, 2, 12, 4⟩)]

/-! ### Helper lemmas -/

theorem foldl_add_map (h : ℕ → ℚ) : ∀ (l : List ℕ) (c : ℚ),
    l.foldl (fun acc i => acc + h i) c = c + (l.map h).sum
  | [], c => by simp
  | i :: l, c => by
    rw [List.foldl_cons, foldl_add_map h l (c + h i)]
    simp [add_assoc]

theorem range_map_mul_sum : ∀ (a b : List ℚ),
    ((List.range (min a.length b.length)).map fun i => a.getD i 0 * b.getD i 0).sum
      = (List.zipWith (· * ·) a b).sum
  | [], _ => by simp
  | _ :: _, [] => by simp
  | x :: a, y :: b => by
    rw [List.zipWith_cons_cons, List.sum_cons, ← range_map_mul_sum a b]
    simp only [List.length_cons, Nat.succ_min_succ, List.range_succ_eq_map, List.map_cons,
      List.sum_cons, List.map_map]
    congr 1

/-- C10: `cosineSimilarity` is total on any two vectors: it equals the sum
of coordinatewise products of the common prefix (`zipWith` truncates to the
shorter length), so no index beyond `min |a| |b|` is ever read and a
dimension mismatch is silently truncated. -/
theorem cosineSimilarity_truncates_to_zipWith (a b : List ℚ) :
    cosineSimilarity a b = (List.zipWith (· * ·) a b).sum := by
  unfold cosineSimilarity
  rw [foldl_add_map, zero_add, range_map_mul_sum]

theorem enumFrom_filter_ne_lt {α : Type} : ∀ (l : List α) (s i : ℕ), i < s →
    ((List.enumFrom s l).filter (fun p => p.1 ≠ i)).map Prod.snd = l
  | [], _, _, _ => rfl
  | x :: xs, s, i, h => by
    have hne : s ≠ i := by omega
    have ih := enumFrom_filter_ne_lt xs (s + 1) i (by omega)
    simp only [ne_eq, decide_not] at ih
    simp [List.enumFrom_cons, List.filter_cons, hne, ih]

theorem enumFrom_filter_ne {α : Type} : ∀ (l : List α) (s i : ℕ), s ≤ i →
    ((List.enumFrom s l).filter (fun p => p.1 ≠ i)).map Prod.snd =
      l.take (i - s) ++ l.drop (i - s + 1)
  | [], _, _, _ => by simp
  | x :: xs, s, i, h => by
    rw [List.enumFrom_cons, List.filter_cons]
    by_cases hsi : s = i
    · subst hsi
      have ih := enumFrom_filter_ne_lt xs (s + 1) s (by omega)
      simp only [ne_eq, decide_not] at ih
      simp [Nat.sub_self, ih]
    · have ih := enumFrom_filter_ne xs (s + 1) i (by omega)
      simp only [ne_eq, decide_not] at ih
      have h1 : i - s = (i - s - 1) + 1 := by omega
      have h2 : i - (s + 1) = i - s - 1 := by omega
      simp only [ne_eq, decide_not]
      rw [if_pos (by simp [hsi] : (!decide ((s, x).1 = i)) = true), List.map_cons, ih, h2, h1]
      simp [List.take_succ_cons, List.drop_succ_cons]

theorem findIdx?_first_hit {α : Type} (p : α → Bool) : ∀ (l : List α) (i : ℕ)
    (hi : i < l.length), p (l.get ⟨i, hi⟩) = true →
    (∀ j (hj : j < i), p (l.get ⟨j, Nat.lt_trans hj hi⟩) = false) →
    l.findIdx? p = some i
  | [], i, hi, _, _ => by simp at hi
  | x :: xs, 0, hi, hp, _ => by
    rw [List.findIdx?_cons]
    simpa using hp
  | x :: xs, i + 1, hi, hp, hmin => by
    rw [List.findIdx?_cons]
    have hx : p x = false := hmin 0 (Nat.succ_pos i)
    rw [hx]
    simp only [Bool.false_eq_true, if_false, List.findIdx?_succ]
    have := findIdx?_first_hit p xs i (by simpa using hi) (by simpa using hp)
      (fun j hj => hmin (j + 1) (by omega))
    rw [this]
    rfl

/-- C9 (counterexample): with two overlapping boxes both containing the
click, the handler removes the *first* box in list order (the one rendered
first, underneath), not the topmost; the specified topmost-removal would
keep the first box instead. -/
theorem removeRectAt_not_topmost :
    removeRectAt [⟨0, 0, 10, 10⟩, ⟨5, 5, 10, 10⟩] 6 6 = [⟨5, 5, 10, 10⟩] ∧
    removeTopmostSpec [⟨0, 0, 10, 10⟩, ⟨5, 5, 10, 10⟩] 6 6 = [⟨0, 0, 10, 10⟩] ∧
    ([(⟨5, 5, 10, 10⟩ : Rect)] : List Rect) ≠ [⟨0, 0, 10, 10⟩] := by
  refine ⟨by decide, by decide, by decide⟩

/-- C9 (amended): `remove(point)` deletes exactly the *first* rectangle in
list order whose box contains the point, leaving every other rectangle (and
their order) unchanged; when no rectangle contains the point the list is
returned unchanged. -/
theorem removeRectAt_removes_first_hit (boxes : List Rect) (px py : ℚ) :
    ((∀ b ∈ boxes, containsPoint b px py = false) → removeRectAt boxes px py = boxes) ∧
    (∀ i (hi : i < boxes.length), containsPoint (boxes.get ⟨i, hi⟩) px py = true →
      (∀ j (hj : j < i), containsPoint (boxes.get ⟨j, Nat.lt_trans hj hi⟩) px py = false) →
      removeRectAt boxes px py = boxes.take i ++ boxes.drop (i + 1)) := by
  constructor
  · intro hnone
    unfold removeRectAt
    rw [List.findIdx?_eq_none_iff.mpr fun x hx => hnone x hx]
  · intro i hi hp hmin
    unfold removeRectAt
    rw [findIdx?_first_hit _ boxes i hi hp hmin]
    have := enumFrom_filter_ne boxes 0 i (Nat.zero_le i)
    simpa [List.enum] using this

/-- C9 witness: the amended removal theorem applied to a concrete
two-element list at both of its branches. -/
theorem removeRectAt_removes_first_hit_witness :
    removeRectAt [(⟨0, 0, 4, 4⟩ : Rect), ⟨6, 6, 2, 2⟩] 20 20
        = [⟨0, 0, 4, 4⟩, ⟨6, 6, 2, 2⟩] ∧
    removeRectAt [(⟨0, 0, 4, 4⟩ : Rect), ⟨6, 6, 2, 2⟩] 7 7
        = ([(⟨0, 0, 4, 4⟩ : Rect), ⟨6, 6, 2, 2⟩].take 1 ++
           [(⟨0, 0, 4, 4⟩ : Rect), ⟨6, 6, 2, 2⟩].drop 2) :=
  ⟨(removeRectAt_removes_first_hit [⟨0, 0, 4, 4⟩, ⟨6, 6, 2, 2⟩] 20 20).1 (by decide),
   (removeRectAt_removes_first_hit [⟨0, 0, 4, 4⟩, ⟨6, 6, 2, 2⟩] 7 7).2 1 (by decide)
     (by decide) (by decide)⟩

theorem nmsLoop_append (thr : ℚ) : ∀ (l acc : List Rect),
    ∃ sub : List Rect, nmsLoop thr l acc = acc ++ sub ∧ sub.Sublist l
  | [], acc => ⟨[], by simp [nmsLoop]⟩
  | c :: rest, acc => by
    unfold nmsLoop
    by_cases h : acc.any (isDup thr c) = true
    · obtain ⟨sub, h1, h2⟩ := nmsLoop_append thr rest acc
      exact ⟨sub, by simp [h, h1], h2.cons c⟩
    · obtain ⟨sub, h1, h2⟩ := nmsLoop_append thr rest (acc ++ [c])
      exact ⟨c :: sub, by simp [h, h1], h2.cons₂ c⟩

theorem nmsLoop_mem_of_mem_acc (thr : ℚ) : ∀ (l acc : List Rect), ∀ r ∈ acc,
    r ∈ nmsLoop thr l acc := by
  intro l acc r hr
  obtain ⟨sub, h1, _⟩ := nmsLoop_append thr l acc
  rw [h1]
  exact List.mem_append_left _ hr

theorem nmsLoop_pairwise (thr : ℚ) : ∀ (l acc : List Rect),
    acc.Pairwise (fun e c => isDup thr c e = false) →
    (nmsLoop thr l acc).Pairwise (fun e c => isDup thr c e = false)
  | [], acc, h => h
  | c :: rest, acc, h => by
    unfold nmsLoop
    by_cases hdup : acc.any (isDup thr c) = true
    · simpa [hdup] using nmsLoop_pairwise thr rest acc h
    · have hall : ∀ e ∈ acc, isDup thr c e = false := by
        intro e he
        by_contra hne
        exact hdup (List.any_eq_true.mpr ⟨e, he, by simpa using hne⟩)
      have : (acc ++ [c]).Pairwise (fun e c2 => isDup thr c2 e = false) := by
        rw [List.pairwise_append]
        exact ⟨h, List.pairwise_singleton _ c, by simpa using hall⟩
      simpa [hdup] using nmsLoop_pairwise thr rest (acc ++ [c]) this

theorem performNMS_subset (cands : List Rect) (thr : ℚ) :
    ∀ r ∈ performNMS cands thr, r ∈ cands := by
  intro r hr
  unfold performNMS at hr
  obtain ⟨sub, h1, h2⟩ := nmsLoop_append thr (List.insertionSort areaGE cands) []
  rw [h1] at hr
  simp only [List.nil_append] at hr
  exact (List.perm_insertionSort areaGE cands).mem_iff.mp (h2.mem hr)

theorem performNMS_sorted (cands : List Rect) (thr : ℚ) :
    (performNMS cands thr).Pairwise areaGE := by
  unfold performNMS
  obtain ⟨sub, h1, h2⟩ := nmsLoop_append thr (List.insertionSort areaGE cands) []
  rw [h1]
  simp only [List.nil_append]
  exact List.Pairwise.sublist h2 (List.sorted_insertionSort areaGE cands)

theorem performNMS_pairwise_nodup (cands : List Rect) (thr : ℚ) :
    (performNMS cands thr).Pairwise (fun e c => isDup thr c e = false) :=
  nmsLoop_pairwise thr _ [] (List.Pairwise.nil)

theorem isDup_of_contains (thr : ℚ) (hthr : thr < 1) (outer inner : Rect)
    (hw : 0 < inner.width) (hh : 0 < inner.height)
    (hc : rectContains outer inner) : isDup thr inner outer = true := by
  obtain ⟨h1, h2, h3, h4⟩ := hc
  unfold isDup
  have hx1 : max inner.x outer.x = inner.x := max_eq_left h1
  have hy1 : max inner.y outer.y = inner.y := max_eq_left h2
  have hx2 : min (inner.x + inner.width) (outer.x + outer.width) = inner.x + inner.width :=
    min_eq_left h3
  have hy2 : min (inner.y + inner.height) (outer.y + outer.height) = inner.y + inner.height :=
    min_eq_left h4
  rw [hx1, hy1, hx2, hy2]
  have hcondx : inner.x + inner.width > inner.x := by linarith
  have hcondy : inner.y + inner.height > inner.y := by linarith
  rw [if_pos ⟨hcondx, hcondy⟩]
  have harea : (inner.x + inner.width - inner.x) * (inner.y + inner.height - inner.y)
      = inner.width * inner.height := by ring
  have hpos : (0 : ℚ) < inner.width * inner.height := mul_pos hw hh
  show decide ((inner.x + inner.width - inner.x) * (inner.y + inner.height - inner.y) /
      (inner.width * inner.height) > thr) = true
  rw [harea, div_self (ne_of_gt hpos)]
  simpa using hthr

theorem rect_eq_of_contains_of_area_le (a b : Rect)
    (haw : 0 < a.width) (hah : 0 < a.height)
    (hc : rectContains b a) (harea : rectArea b ≤ rectArea a) : a = b := by
  obtain ⟨h1, h2, h3, h4⟩ := hc
  unfold rectArea at harea
  have hwle : a.width ≤ b.width := by linarith
  have hhle : a.height ≤ b.height := by linarith
  have hbw : (0 : ℚ) < b.width := lt_of_lt_of_le haw hwle
  have e1 : b.width * a.height ≤ b.width * b.height :=
    mul_le_mul_of_nonneg_left hhle (le_of_lt hbw)
  have e2 : a.width * a.height ≤ b.width * a.height :=
    mul_le_mul_of_nonneg_right hwle (le_of_lt hah)
  have hweq : a.width = b.width :=
    mul_right_cancel₀ (ne_of_gt hah) (le_antisymm e2 (by linarith))
  have hheq : a.height = b.height := by
    rw [hweq] at harea
    have key : b.width * b.height = b.width * a.height :=
      le_antisymm (by linarith) e1
    exact (mul_left_cancel₀ (ne_of_gt hbw) key).symm
  have hxeq : a.x = b.x := le_antisymm (by rw [hweq] at h3; linarith) h1
  have hyeq : a.y = b.y := le_antisymm (by rw [hheq] at h4; linarith) h2
  obtain ⟨ax, ay, aw, ah⟩ := a
  obtain ⟨bx, b2, bw, bh⟩ := b
  simp_all

/-- Containment-freedom for a pair of kept rectangles: the later (smaller
or equal area) one is not a duplicate of the earlier one, which rules out
containment in either direction. -/
theorem no_containment_pair (thr : ℚ) (hthr : thr < 1) (a b : Rect)
    (haw : 0 < a.width) (hah : 0 < a.height) (hbw : 0 < b.width) (hbh : 0 < b.height)
    (hord : areaGE a b) (hnd : isDup thr b a = false) :
    ¬ rectContains a b ∧ ¬ rectContains b a := by
  constructor
  · intro hc
    rw [isDup_of_contains thr hthr a b hbw hbh hc] at hnd
    simp at hnd
  · intro hc
    have heq : a = b := rect_eq_of_contains_of_area_le a b haw hah hc hord
    subst heq
    rw [isDup_of_contains thr hthr a a haw hah ⟨le_refl _, le_refl _, le_refl _, le_refl _⟩]
      at hnd
    simp at hnd

theorem nmsLoop_keeps_nondup (thr : ℚ) (r : Rect) : ∀ (l acc : List Rect),
    (∀ s ∈ l, s ≠ r → isDup thr r s = false) →
    (∀ s ∈ acc, s ≠ r → isDup thr r s = false) →
    (r ∈ acc ∨ r ∈ l) → r ∈ nmsLoop thr l acc
  | [], acc, _, _, hr => by
    unfold nmsLoop
    rcases hr with h | h
    · exact h
    · simp at h
  | c :: rest, acc, hl, hacc, hr => by
    unfold nmsLoop
    by_cases hdup : acc.any (isDup thr c) = true
    · simp only [hdup, if_true]
      refine nmsLoop_keeps_nondup thr r rest acc (fun s hs => hl s (List.mem_cons_of_mem c hs))
        hacc ?_
      rcases hr with h | h
      · exact Or.inl h
      · rcases List.mem_cons.mp h with heq | hmem
        · subst heq
          obtain ⟨e, he, hde⟩ := List.any_eq_true.mp hdup
          by_cases her : e = r
          · subst her
            exact Or.inl he
          · rw [hacc e he her] at hde
            exact absurd hde (by simp)
        · exact Or.inr hmem
    · simp only [hdup, if_false]
      refine nmsLoop_keeps_nondup thr r rest (acc ++ [c])
        (fun s hs => hl s (List.mem_cons_of_mem c hs)) ?_ ?_
      · intro s hs hne
        rcases List.mem_append.mp hs with h | h
        · exact hacc s h hne
        · simp only [List.mem_singleton] at h
          subst h
          exact hl s (List.mem_cons_self _ _) hne
      · rcases hr with h | h
        · exact Or.inl (List.mem_append_left _ h)
        · rcases List.mem_cons.mp h with heq | hmem
          · subst heq
            exact Or.inl (List.mem_append_right _ (List.mem_singleton_self _))
          · exact Or.inr hmem

/-- C6 (counterexample): two rectangles that partially overlap with neither
containing the other (the second extends past the first both in x via its
width and is strictly narrower), yet `performNMS` at the production
threshold 0.6 drops the smaller one because the overlap is 80/90 of its
area. -/
theorem performNMS_drops_partial_overlap :
    performNMS [⟨0, 0, 10, 10⟩, ⟨2, 0, 9, 10⟩] (6 / 10) = [⟨0, 0, 10, 10⟩] ∧
    ¬ rectContains ⟨0, 0, 10, 10⟩ ⟨2, 0, 9, 10⟩ ∧
    ¬ rectContains ⟨2, 0, 9, 10⟩ ⟨0, 0, 10, 10⟩ := by
  refine ⟨by decide, by decide, by decide⟩

/-- C6 (amended): on positive-dimension rectangles the filter always
removes any rectangle fully inside another kept one — no two output
rectangles contain one another — while a rectangle that duplicates no other
candidate (in particular, one whose every partial overlap is at most the
threshold share of its own area) is always kept. -/
theorem performNMS_containment_free_and_keeps_nondup (thr : ℚ) (cands : List Rect)
    (hpos : ∀ r ∈ cands, 0 < r.width ∧ 0 < r.height) (hthr : thr < 1) :
    (performNMS cands thr).Pairwise
      (fun a b => ¬ rectContains a b ∧ ¬ rectContains b a) ∧
    ∀ r ∈ cands, (∀ s ∈ cands, s ≠ r → isDup thr r s = false) →
      r ∈ performNMS cands thr := by
  constructor
  · have hall := (performNMS_sorted cands thr).and (performNMS_pairwise_nodup cands thr)
    refine hall.imp_of_mem ?_
    intro a b ha hb hab
    have hpa := hpos a (performNMS_subset cands thr a ha)
    have hpb := hpos b (performNMS_subset cands thr b hb)
    exact no_containment_pair thr hthr a b hpa.1 hpa.2 hpb.1 hpb.2 hab.1 hab.2
  · intro r hr hnod
    unfold performNMS
    refine nmsLoop_keeps_nondup thr r _ [] ?_ (by simp) ?_
    · intro s hs hne
      exact hnod s ((List.perm_insertionSort areaGE cands).mem_iff.mp hs) hne
    · exact Or.inr ((List.perm_insertionSort areaGE cands).mem_iff.mpr hr)

/-- C6 witness: the amended theorem applied to a concrete candidate list in
which the two rectangles overlap by less than the threshold share. -/
theorem performNMS_amended_witness :
    (performNMS [(⟨0, 0, 4, 4⟩ : Rect), ⟨3, 0, 4, 4⟩] (6 / 10)).Pairwise
      (fun a b => ¬ rectContains a b ∧ ¬ rectContains b a) ∧
    (⟨3, 0, 4, 4⟩ : Rect) ∈ performNMS [(⟨0, 0, 4, 4⟩ : Rect), ⟨3, 0, 4, 4⟩] (6 / 10) :=
  ⟨(performNMS_containment_free_and_keeps_nondup (6 / 10) [⟨0, 0, 4, 4⟩, ⟨3, 0, 4, 4⟩]
      (by decide) (by decide)).1,
   (performNMS_containment_free_and_keeps_nondup (6 / 10) [⟨0, 0, 4, 4⟩, ⟨3, 0, 4, 4⟩]
      (by decide) (by decide)).2 ⟨3, 0, 4, 4⟩ (by decide) (by decide)⟩

theorem digitRunsAux_nil_of_no_digit : ∀ (v : List Char),
    (∀ c ∈ v, isDigitChar c = false) → digitRunsAux v [] = []
  | [], _ => rfl
  | c :: cs, h => by
    unfold digitRunsAux
    rw [h c (List.mem_cons_self _ _)]
    simpa using digitRunsAux_nil_of_no_digit cs fun c2 hc2 => h c2 (List.mem_cons_of_mem c hc2)

theorem digitRunsAux_no_digit (v acc : List Char)
    (h : ∀ c ∈ v, isDigitChar c = false) (hacc : acc ≠ []) :
    digitRunsAux v acc = [acc.reverse] := by
  cases v with
  | nil => simp [digitRunsAux, hacc]
  | cons c cs =>
    unfold digitRunsAux
    rw [h c (List.mem_cons_self _ _)]
    simp only [Bool.false_eq_true, if_false, List.isEmpty_eq_true, hacc, if_false]
    rw [digitRunsAux_nil_of_no_digit cs fun c2 hc2 => h c2 (List.mem_cons_of_mem c hc2)]

theorem digitRunsAux_digits : ∀ (d v acc : List Char),
    (∀ c ∈ d, isDigitChar c = true) →
    digitRunsAux (d ++ v) acc = digitRunsAux v (d.reverse ++ acc)
  | [], v, acc, _ => by simp
  | c :: d2, v, acc, h => by
    have hc := h c (List.mem_cons_self _ _)
    have ih := digitRunsAux_digits d2 v (c :: acc)
      fun c2 hc2 => h c2 (List.mem_cons_of_mem c hc2)
    rw [List.cons_append,
      show digitRunsAux (c :: (d2 ++ v)) acc = digitRunsAux (d2 ++ v) (c :: acc) by
        simp [digitRunsAux, hc],
      ih, List.reverse_cons, List.append_assoc, List.singleton_append]

theorem getLast?_ne_nil {α : Type} {l : List α} {a : α} (h : l.getLast? = some a) :
    l ≠ [] := by
  intro he
  subst he
  simp at h

theorem digitRunsAux_getLast : ∀ (u d v acc : List Char), d ≠ [] →
    (∀ c ∈ d, isDigitChar c = true) → (∀ c ∈ v, isDigitChar c = false) →
    (u = [] → acc = []) → (∀ c2, u.getLast? = some c2 → isDigitChar c2 = false) →
    (digitRunsAux (u ++ d ++ v) acc).getLast? = some d
  | [], d, v, acc, hd, hdall, hv, hu0, _ => by
    rw [hu0 rfl, List.nil_append, digitRunsAux_digits d v [] hdall, List.append_nil,
      digitRunsAux_no_digit v d.reverse hv (by simpa using hd)]
    simp
  | c :: u2, d, v, acc, hd, hdall, hv, _, hue => by
    rw [List.cons_append, List.cons_append]
    unfold digitRunsAux
    cases hu2 : u2 with
    | nil =>
      have hc : isDigitChar c = false := hue c (by simp [hu2])
      rw [hc]
      simp only [Bool.false_eq_true, if_false]
      by_cases hacc : acc.isEmpty = true
      · rw [if_pos hacc]
        exact digitRunsAux_getLast [] d v [] hd hdall hv (fun _ => rfl)
          (fun c2 hc2 => by simp at hc2)
      · rw [if_neg hacc]
        have htail := digitRunsAux_getLast [] d v [] hd hdall hv (fun _ => rfl)
          (fun c2 hc2 => by simp at hc2)
        obtain ⟨y, l2, hyl⟩ : ∃ y l2, digitRunsAux ([] ++ d ++ v) [] = y :: l2 := by
          cases hdr : digitRunsAux ([] ++ d ++ v) [] with
          | nil => rw [hdr] at htail; simp at htail
          | cons y l2 => exact ⟨y, l2, rfl⟩
        simp only [List.nil_append] at hyl htail ⊢
        rw [hyl]
        rw [hyl] at htail
        simpa using htail
    | cons y u3 =>
      have hue2 : ∀ c2, u2.getLast? = some c2 → isDigitChar c2 = false := by
        intro c2 hc2
        apply hue
        rw [hu2] at hc2 ⊢
        simpa using hc2
      rw [← hu2]
      by_cases hc : isDigitChar c = true
      · rw [hc]
        simp only [if_true]
        exact digitRunsAux_getLast u2 d v (c :: acc) hd hdall hv
          (fun h => by rw [hu2] at h; simp at h) hue2
      · rw [Bool.not_eq_true] at hc
        rw [hc]
        simp only [Bool.false_eq_true, if_false]
        by_cases hacc : acc.isEmpty = true
        · rw [if_pos hacc]
          exact digitRunsAux_getLast u2 d v [] hd hdall hv (fun _ => rfl) hue2
        · rw [if_neg hacc]
          have htail := digitRunsAux_getLast u2 d v [] hd hdall hv (fun _ => rfl) hue2
          obtain ⟨z, l2, hyl⟩ : ∃ z l2, digitRunsAux (u2 ++ d ++ v) [] = z :: l2 := by
            cases hdr : digitRunsAux (u2 ++ d ++ v) [] with
            | nil => rw [hdr] at htail; simp at htail
            | cons z l2 => exact ⟨z, l2, rfl⟩
          rw [hyl]
          rw [hyl] at htail
          simpa using htail

/-- C7 (counterexample): for the hint `"5 mk2 go"` the only standalone
integer token is `5`, yet the implementation returns 2 — the digit run
embedded in the word `mk2` — because `/(\d+)/g` matches digit runs inside
words as well. -/
theorem parseQty_not_standalone_token :
    xCaptureFrom "5 mk2 go".data = none ∧
    lastStandaloneInt "5 mk2 go" = some 5 ∧
    parseQty "5 mk2 go" = 2 ∧ (2 : ℕ) ≠ 5 := by
  refine ⟨by decide, by decide, by decide, by decide⟩

/-- C7 (amended): the quantity is the first `x\s*(\d+)` capture when one
exists; otherwise, writing the hint as `u ++ d ++ v` where `d` is a
non-empty digit run, `v` is digit-free and `u` does not end in a digit
(i.e. `d` is the last maximal digit run, standalone or embedded in a
word), the quantity is the value of `d`; with no digits at all it
defaults to 1. -/
theorem parseQty_priority_and_last_run (s : String) :
    (∀ q, xCaptureFrom s.data = some q → parseQty s = q) ∧
    (xCaptureFrom s.data = none →
      (∀ u d v, s.data = u ++ d ++ v → d ≠ [] → (∀ c ∈ d, isDigitChar c = true) →
        (∀ c ∈ v, isDigitChar c = false) →
        (∀ c2, u.getLast? = some c2 → isDigitChar c2 = false) →
        parseQty s = digitsToNat d) ∧
      ((∀ c ∈ s.data, isDigitChar c = false) → parseQty s = 1)) := by
  refine ⟨fun q hq => by rw [parseQty, hq], fun hx => ⟨?_, ?_⟩⟩
  · intro u d v hs hd hdall hv hue
    have hu0 : u = [] → ([] : List Char) = [] := fun _ => rfl
    have hlast := digitRunsAux_getLast u d v [] hd hdall hv (fun _ => rfl) hue
    rw [parseQty, hx]
    unfold digitRuns
    rw [hs, hlast]
  · intro hnod
    rw [parseQty, hx]
    unfold digitRuns
    rw [digitRunsAux_nil_of_no_digit s.data hnod]
    rfl

/-- C7 witness: the amended quantity rule at concrete hints — the
`x`-capture branch on `"go x2 now"`, the embedded-last-run branch on
`"5 mk2 go"`, and the default branch on `"abc"`. -/
theorem parseQty_priority_witness :
    parseQty "go x2 now" = 2 ∧ parseQty "5 mk2 go" = 2 ∧ parseQty "abc" = 1 := by
  refine ⟨(parseQty_priority_and_last_run "go x2 now").1 2 (by decide), ?_,
    ((parseQty_priority_and_last_run "abc").2 (by decide)).2 (by decide)⟩
  have h := ((parseQty_priority_and_last_run "5 mk2 go").2 (by decide)).1
    "5 mk".data "2".data " go".data (by decide) (by decide) (by decide) (by decide)
    (fun c2 hc2 => by
      rw [(by decide : ("5 mk".data : List Char).getLast? = some (Char.ofNat 107))] at hc2
      injection hc2 with h3
      subst h3
      decide)
  exact h.trans (by decide)

/-- C4: for a hint of length ≥ 3 with no exact name/alias match, the fast
path resolves (with score 0.95, to the name heading the distance-sorted
list) exactly when the minimum Levenshtein distance over all names and
aliases is ≤ 2 and (the matched name is longer than 4 characters or the
distance is ≤ 1); the head of the sorted list realises that minimum.  In
particular the two-character hint `"at"` never enters the fast path at
all, so it never resolves by edit distance against any catalog. -/
theorem fastPath_edit_distance_guard :
    (∀ catalog : List CatalogItem, fastPath catalog "at" = none) ∧
    ∀ (catalog : List CatalogItem) (hint : String) (best : String × ℕ)
      (rest : List (String × ℕ)),
      3 ≤ hint.length →
      findExact catalog (trimJS (toLowerCaseJS hint)) = none →
      List.insertionSort distLe (scoredItems catalog (trimJS (toLowerCaseJS hint))) = best :: rest →
      (∀ p ∈ scoredItems catalog (trimJS (toLowerCaseJS hint)), best.2 ≤ p.2) ∧
      (fastPath catalog hint = some ⟨best.1, 95 / 100⟩ ↔
        (best.2 ≤ 2 ∧ (4 < best.1.length ∨ best.2 ≤ 1))) ∧
      (¬ (best.2 ≤ 2 ∧ (4 < best.1.length ∨ best.2 ≤ 1)) →
        fastPath catalog hint = none) := by
  constructor
  · intro catalog
    unfold fastPath
    rw [if_neg (by decide)]
  · intro catalog hint best rest h3 hne hsort
    have hmin : ∀ p ∈ scoredItems catalog (trimJS (toLowerCaseJS hint)), best.2 ≤ p.2 := by
      intro p hp
      have hp2 : p ∈ best :: rest := by
        rw [← hsort]
        exact (List.perm_insertionSort distLe _).mem_iff.mpr hp
      rcases List.mem_cons.mp hp2 with h | h
      · rw [h]
      · have hs := List.sorted_insertionSort distLe (scoredItems catalog (trimJS (toLowerCaseJS hint)))
        rw [hsort] at hs
        exact List.rel_of_sorted_cons hs p h
    have hfp : fastPath catalog hint =
        if best.2 ≤ 2 ∧ (4 < best.1.length ∨ best.2 ≤ 1) then some ⟨best.1, 95 / 100⟩
        else none := by
      unfold fastPath
      rw [if_pos h3]
      simp only [hne, hsort]
    refine ⟨hmin, ?_, ?_⟩
    · rw [hfp]
      by_cases hcond : best.2 ≤ 2 ∧ (4 < best.1.length ∨ best.2 ≤ 1)
      · simp [hcond]
      · simp [hcond]
    · intro hcond
      rw [hfp, if_neg hcond]

/-- C4 witness: the guard theorem applied to the hint `"at"` on the empty
catalog and to the hint `"Hammer7"` (distance 1 to the six-letter name
`"Hammer"`) on a one-item catalog. -/
theorem fastPath_edit_distance_guard_witness :
    fastPath [] "at" = none ∧
    fastPath [⟨"Hammer", []⟩] "Hammer7" = some ⟨"Hammer", 95 / 100⟩ := by
  refine ⟨fastPath_edit_distance_guard.1 [], ?_⟩
  have h := fastPath_edit_distance_guard.2 [⟨"Hammer", []⟩] "Hammer7" ("Hammer", 1) []
    (by decide) (by decide) (by decide)
  exact h.2.1.mpr (by decide)

/-- C3 (counterexample): with a catalog containing exactly the item
`"Bandage"`, the hint `"Bandage x5"` does not resolve on the fast path —
the quantity suffix leaves it at Levenshtein distance 3 from `"bandage"` —
so the region is queued for the visual encoder and the final label is
whatever the encoder answers, not `{label "Bandage", score 1.0}`. -/
theorem bandage_x5_not_fast_path :
    fastPath [⟨"Bandage", []⟩] "Bandage x5" = none ∧
    levenshteinDistance "bandage x5" "bandage" = 3 ∧
    (prepareBatch [⟨"Bandage", []⟩] [⟨some "img", "Bandage x5"⟩]).pendingIndices = [0] ∧
    analyzeBatch [⟨"Bandage", []⟩] (fun _ _ => some [.single ⟨"Rusted Pipe", 1 / 2⟩])
      [⟨some "img", "Bandage x5"⟩] = [some ⟨"Rusted Pipe", 1 / 2⟩] := by
  refine ⟨by decide, by decide, by decide, by decide⟩

/-- C3 (amended): a batch item whose hint is exactly `"Bandage"` resolves
on the fast path with label `"Bandage"` and score 1.0 for any catalog whose
exact search finds that item, with no worker involvement at all; the
quantity 5 is still parsed from the hint `"Bandage x5"` by the analysis
loop, but that hint itself is sent to the encoder (its index joins the
pending list) rather than being resolved by the exact-match rule. -/
theorem bandage_fast_path_amended (catalog : List CatalogItem) (al : List String)
    (img : Option String)
    (worker : List String → List (List String) → Option (List WorkerItemRes))
    (h : findExact catalog "bandage" = some ⟨"Bandage", al⟩) :
    analyzeBatch catalog worker [⟨img, "Bandage"⟩] = [some ⟨"Bandage", 1⟩] ∧
    parseQty "Bandage x5" = 5 ∧
    (prepareBatch [⟨"Bandage", []⟩] [⟨some "i", "Bandage x5"⟩]).pendingIndices = [0] := by
  have hfast : fastPath catalog "Bandage" = some ⟨"Bandage", 1⟩ := by
    unfold fastPath
    rw [if_pos (by decide)]
    simp only [show trimJS (toLowerCaseJS "Bandage") = "bandage" from by decide, h]
  have hprep : prepareBatch catalog [⟨img, "Bandage"⟩] =
      ⟨[some ⟨"Bandage", 1⟩], [], [], []⟩ := by
    unfold prepareBatch prepStep
    simp [hfast, List.enum]
  refine ⟨?_, by decide, by decide⟩
  unfold analyzeBatch
  rw [hprep]
  simp

/-- C3 witness: the amended theorem at the one-item catalog, a present
image, and a worker that errors out (showing the fast path does not depend
on it). -/
theorem bandage_fast_path_amended_witness :
    analyzeBatch [⟨"Bandage", []⟩] (fun _ _ => none) [⟨some "i", "Bandage"⟩]
        = [some ⟨"Bandage", 1⟩] ∧
    parseQty "Bandage x5" = 5 ∧
    (prepareBatch [⟨"Bandage", []⟩] [⟨some "i", "Bandage x5"⟩]).pendingIndices = [0] :=
  bandage_fast_path_amended [⟨"Bandage", []⟩] [] (some "i") (fun _ _ => none) (by decide)

/-- C2 (code bug): in a two-item batch whose first image fails to convert,
the worker receives only the second image, yet its single result is merged
back at `pendingIndices[0] = 0`; the failed region ends up with its
sibling's analysis and the sibling ends up `null` — contradicting the
intended per-index isolation (and the source comment that `result[i]`
stays null for the failed index). -/
theorem analyzeBatch_shifts_sibling_results :
    analyzeBatch [] (fun _ _ => some [.single ⟨"Wrench", 9 / 10⟩])
      [⟨none, ""⟩, ⟨some "ok", ""⟩] = [some ⟨"Wrench", 9 / 10⟩, none] ∧
    ([some (⟨"Wrench", 9 / 10⟩ : AnalysisResult), none] : List (Option AnalysisResult))
      ≠ [none, some ⟨"Wrench", 9 / 10⟩] := by
  refine ⟨by decide, by decide⟩

/-- C1 (counterexample): with a failing first conversion, the element at
index 0 of the output is not the analysis result for input item 0 (which
should be `null`) but the result belonging to item 1, and item 1 gets
nothing. -/
theorem analyzeBatch_misplaces_on_decode_failure :
    analyzeBatch [] (fun _ _ => some [.arr [⟨"Anvil", 3 / 4⟩]])
      [⟨none, "zz"⟩, ⟨some "b64", "zz"⟩] = [some ⟨"Anvil", 3 / 4⟩, none] ∧
    expectedResultAt [] (fun _ _ => some [.arr [⟨"Anvil", 3 / 4⟩]])
      [⟨none, "zz"⟩, ⟨some "b64", "zz"⟩] 0 = none ∧
    expectedResultAt [] (fun _ _ => some [.arr [⟨"Anvil", 3 / 4⟩]])
      [⟨none, "zz"⟩, ⟨some "b64", "zz"⟩] 1 = some ⟨"Anvil", 3 / 4⟩ := by
  refine ⟨by decide, by decide, by decide⟩

/-! ### Characterisation of the batch preparation and merge loops -/

theorem prepStep_results_length (catalog : List CatalogItem) (st : PrepState)
    (i : ℕ) (it : BatchItem) :
    (prepStep catalog st i it).results.length = st.results.length := by
  unfold prepStep
  cases fastPath catalog it.hintText with
  | some r => simp
  | none => cases it.imageData <;> rfl

theorem prepStep_pendingIndices (catalog : List CatalogItem) (st : PrepState)
    (i : ℕ) (it : BatchItem) :
    (prepStep catalog st i it).pendingIndices =
      st.pendingIndices ++ (if isSlow catalog it then [i] else []) := by
  unfold prepStep isSlow
  cases fastPath catalog it.hintText with
  | some r => simp
  | none => cases it.imageData <;> simp

theorem prepStep_pendingImages (catalog : List CatalogItem) (st : PrepState)
    (i : ℕ) (it : BatchItem) :
    (prepStep catalog st i it).pendingImages =
      st.pendingImages ++ (if isSlow catalog it then it.imageData.toList else []) := by
  unfold prepStep isSlow
  cases fastPath catalog it.hintText with
  | some r => simp
  | none => cases it.imageData <;> simp

theorem prepStep_pendingCandidatesList (catalog : List CatalogItem) (st : PrepState)
    (i : ℕ) (it : BatchItem) :
    (prepStep catalog st i it).pendingCandidatesList =
      st.pendingCandidatesList ++
        (if isSlow catalog it
         then (it.imageData.map fun _ => candidatesFor catalog it.hintText).toList
         else []) := by
  unfold prepStep isSlow
  cases fastPath catalog it.hintText with
  | some r => simp
  | none => cases it.imageData <;> simp

theorem prepStep_results_ne (catalog : List CatalogItem) (st : PrepState)
    (i j : ℕ) (it : BatchItem) (hne : j ≠ i) :
    (prepStep catalog st i it).results.get? j = st.results.get? j := by
  unfold prepStep
  cases fastPath catalog it.hintText with
  | some r =>
    simp only [List.get?_eq_getElem?]
    exact List.getElem?_set_ne (fun h => hne h.symm)
  | none => cases it.imageData <;> rfl

theorem prepStep_results_eq (catalog : List CatalogItem) (st : PrepState)
    (i : ℕ) (it : BatchItem) (hi : i < st.results.length) :
    (prepStep catalog st i it).results.get? i =
      match fastPath catalog it.hintText with
      | some r => some (some r)
      | none => st.results.get? i := by
  unfold prepStep
  cases fastPath catalog it.hintText with
  | some r =>
    simp only [List.get?_eq_getElem?]
    exact List.getElem?_set_self hi
  | none => cases it.imageData <;> rfl

theorem prepFold_results_length (catalog : List CatalogItem) :
    ∀ (items : List BatchItem) (s : ℕ) (st : PrepState),
    ((List.enumFrom s items).foldl
        (fun a p => prepStep catalog a p.1 p.2) st).results.length
      = st.results.length
  | [], _, _ => rfl
  | it :: rest, s, st => by
    rw [List.enumFrom_cons, List.foldl_cons,
        prepFold_results_length catalog rest (s + 1) _]
    exact prepStep_results_length catalog st s it

theorem prepFold_results_lt (catalog : List CatalogItem) :
    ∀ (items : List BatchItem) (s : ℕ) (st : PrepState) (j : ℕ), j < s →
    ((List.enumFrom s items).foldl
        (fun a p => prepStep catalog a p.1 p.2) st).results.get? j
      = st.results.get? j
  | [], _, _, _, _ => rfl
  | it :: rest, s, st, j, hj => by
    rw [List.enumFrom_cons, List.foldl_cons,
        prepFold_results_lt catalog rest (s + 1) _ j (Nat.lt_succ_of_lt hj)]
    exact prepStep_results_ne catalog st s j it (Nat.ne_of_lt hj)

theorem prepFold_results_at (catalog : List CatalogItem) :
    ∀ (items : List BatchItem) (s : ℕ) (st : PrepState) (k : ℕ) (it : BatchItem),
    items.get? k = some it → s + items.length ≤ st.results.length →
    ((List.enumFrom s items).foldl
        (fun a p => prepStep catalog a p.1 p.2) st).results.get? (s + k)
      = match fastPath catalog it.hintText with
        | some r => some (some r)
        | none => st.results.get? (s + k)
  | [], _, _, k, it, hk, _ => by simp at hk
  | it0 :: rest, s, st, 0, it, hk, hlen => by
    have hit : it0 = it := by simpa using hk
    subst hit
    have hs : s < st.results.length := by
      simp only [List.length_cons] at hlen; omega
    simp only [Nat.add_zero]
    rw [List.enumFrom_cons, List.foldl_cons,
        prepFold_results_lt catalog rest (s + 1) _ s (Nat.lt_succ_self s)]
    exact prepStep_results_eq catalog st s it0 hs
  | it0 :: rest, s, st, k + 1, it, hk, hlen => by
    have hk2 : rest.get? k = some it := hk
    have hlen2 : (s + 1) + rest.length ≤ (prepStep catalog st s it0).results.length := by
      rw [prepStep_results_length]
      simp only [List.length_cons] at hlen; omega
    rw [List.enumFrom_cons, List.foldl_cons,
        show s + (k + 1) = (s + 1) + k from by omega,
        prepFold_results_at catalog rest (s + 1) _ k it hk2 hlen2]
    cases fastPath catalog it.hintText with
    | some r => rfl
    | none => exact prepStep_results_ne catalog st s ((s + 1) + k) it0 (by omega)

theorem prepFold_pendingIndices (catalog : List CatalogItem) :
    ∀ (items : List BatchItem) (s : ℕ) (st : PrepState),
    ((List.enumFrom s items).foldl
        (fun a p => prepStep catalog a p.1 p.2) st).pendingIndices
      = st.pendingIndices ++
        (((List.enumFrom s items).filter fun p => isSlow catalog p.2).map Prod.fst)
  | [], _, _ => by simp
  | it :: rest, s, st => by
    rw [List.enumFrom_cons, List.foldl_cons,
        prepFold_pendingIndices catalog rest (s + 1) _,
        prepStep_pendingIndices, List.filter_cons]
    cases h : isSlow catalog it <;> simp [h]

theorem prepFold_pendingImages (catalog : List CatalogItem) :
    ∀ (items : List BatchItem) (s : ℕ) (st : PrepState),
    ((List.enumFrom s items).foldl
        (fun a p => prepStep catalog a p.1 p.2) st).pendingImages
      = st.pendingImages ++ (items.filter (isSlow catalog)).filterMap BatchItem.imageData
  | [], _, _ => by simp
  | it :: rest, s, st => by
    rw [List.enumFrom_cons, List.foldl_cons,
        prepFold_pendingImages catalog rest (s + 1) _,
        prepStep_pendingImages, List.filter_cons]
    cases h : isSlow catalog it <;> cases him : it.imageData <;>
      simp [h, him, List.filterMap_cons]

theorem prepFold_pendingCandidatesList (catalog : List CatalogItem) :
    ∀ (items : List BatchItem) (s : ℕ) (st : PrepState),
    ((List.enumFrom s items).foldl
        (fun a p => prepStep catalog a p.1 p.2) st).pendingCandidatesList
      = st.pendingCandidatesList ++
        (items.filter (isSlow catalog)).filterMap
          (fun j => j.imageData.map fun _ => candidatesFor catalog j.hintText)
  | [], _, _ => by simp
  | it :: rest, s, st => by
    rw [List.enumFrom_cons, List.foldl_cons,
        prepFold_pendingCandidatesList catalog rest (s + 1) _,
        prepStep_pendingCandidatesList, List.filter_cons]
    cases h : isSlow catalog it <;> cases him : it.imageData <;>
      simp [h, him, List.filterMap_cons]

theorem enumFrom_fst_lt {α : Type} : ∀ (l : List α) (s : ℕ),
    (List.enumFrom s l).Pairwise fun p q => p.1 < q.1
  | [], _ => List.Pairwise.nil
  | a :: l, s => by
    rw [List.enumFrom_cons]
    refine List.Pairwise.cons (fun q hq => ?_) (enumFrom_fst_lt l (s + 1))
    obtain ⟨m, hm⟩ := List.mem_iff_get?.mp hq
    rw [List.get?_eq_getElem?, List.getElem?_enumFrom] at hm
    cases hl : l[m]? with
    | none => rw [hl] at hm; simp at hm
    | some b =>
      rw [hl] at hm
      have : ((s + 1) + m, b) = q := by simpa using hm
      rw [← this]
      omega

theorem slowIndices_pairwise (catalog : List CatalogItem) (items : List BatchItem)
    (s : ℕ) :
    ((((List.enumFrom s items).filter fun p => isSlow catalog p.2)).map
        Prod.fst).Pairwise (· < ·) :=
  List.pairwise_map.mpr (List.Pairwise.filter _ (enumFrom_fst_lt items s))

theorem slowIndices_rank (catalog : List CatalogItem) :
    ∀ (items : List BatchItem) (s i : ℕ) (it : BatchItem),
    items.get? i = some it → isSlow catalog it = true →
    ((((List.enumFrom s items).filter fun p => isSlow catalog p.2)).map
        Prod.fst).get? (((items.take i).filter (isSlow catalog)).length)
      = some (s + i)
  | [], _, i, it, hk, _ => by simp at hk
  | it0 :: rest, s, 0, it, hk, hslow => by
    have hit : it0 = it := by simpa using hk
    subst hit
    simp [List.enumFrom_cons, List.filter_cons, hslow]
  | it0 :: rest, s, i + 1, it, hk, hslow => by
    have ih := slowIndices_rank catalog rest (s + 1) i it hk hslow
    rw [show s + (i + 1) = (s + 1) + i from by omega]
    cases h0 : isSlow catalog it0 with
    | false =>
      simpa [List.enumFrom_cons, List.filter_cons, List.take_succ_cons, h0] using ih
    | true =>
      simpa [List.enumFrom_cons, List.filter_cons, List.take_succ_cons, h0,
        Nat.add_comm 1] using ih

theorem slowIndices_not_mem (catalog : List CatalogItem) (items : List BatchItem)
    (s i : ℕ) (it : BatchItem) (hk : items.get? i = some it)
    (hfast : isSlow catalog it = false) :
    (s + i) ∉ (((List.enumFrom s items).filter fun p => isSlow catalog p.2)).map
        Prod.fst := by
  intro hmem
  obtain ⟨p, hp, hfst⟩ := List.mem_map.mp hmem
  obtain ⟨hpmem, hpslow⟩ := List.mem_filter.mp hp
  obtain ⟨m, hm⟩ := List.mem_iff_get?.mp hpmem
  rw [List.get?_eq_getElem?, List.getElem?_enumFrom] at hm
  cases hl : items[m]? with
  | none => rw [hl] at hm; simp at hm
  | some b =>
    rw [hl] at hm
    have hpb : p = (s + m, b) := by simpa using hm.symm
    have hmi : m = i := by
      have : p.1 = s + m := by rw [hpb]
      omega
    subst hmi
    rw [← List.get?_eq_getElem?, hk] at hl
    have hbit : it = b := by simpa using hl
    subst hbit
    rw [hpb] at hpslow
    simp only at hpslow
    rw [hfast] at hpslow
    exact Bool.false_ne_true hpslow

theorem applyWorkerRes_length (results : List (Option AnalysisResult)) (oi : ℕ)
    (w : WorkerItemRes) : (applyWorkerRes results oi w).length = results.length := by
  cases w with
  | arr l => cases l <;> simp [applyWorkerRes]
  | single r => simp [applyWorkerRes]
  | nullRes => rfl

theorem applyWorkerRes_ne (results : List (Option AnalysisResult)) (oi j : ℕ)
    (w : WorkerItemRes) (hne : j ≠ oi) :
    (applyWorkerRes results oi w).get? j = results.get? j := by
  cases w with
  | arr l =>
    cases l with
    | nil => rfl
    | cons x xs =>
      simp only [applyWorkerRes, List.get?_eq_getElem?]
      exact List.getElem?_set_ne (fun h => hne h.symm)
  | single r =>
    simp only [applyWorkerRes, List.get?_eq_getElem?]
    exact List.getElem?_set_ne (fun h => hne h.symm)
  | nullRes => rfl

theorem pairwise_lt_get?_ne (l : List ℕ) (hpw : l.Pairwise (· < ·)) (m n : ℕ)
    (hmn : m < n) (v : ℕ) (hm : l.get? m = some v) : l.get? n ≠ some v := by
  intro hn
  rw [List.get?_eq_getElem?] at hm hn
  obtain ⟨hml, hmv⟩ := List.getElem?_eq_some.mp hm
  obtain ⟨hnl, hnv⟩ := List.getElem?_eq_some.mp hn
  have := List.pairwise_iff_getElem.mp hpw m n hml hnl hmn
  omega

theorem mergeFold_length (pidx : List ℕ) :
    ∀ (ws : List WorkerItemRes) (t : ℕ) (res : List (Option AnalysisResult)),
    ((List.enumFrom t ws).foldl
        (fun r p =>
          match pidx.get? p.1 with
          | some originalIndex => applyWorkerRes r originalIndex p.2
          | none => r) res).length = res.length
  | [], _, _ => rfl
  | w :: rest, t, res => by
    rw [List.enumFrom_cons, List.foldl_cons,
        mergeFold_length pidx rest (t + 1) _]
    show (match pidx.get? t with
          | some originalIndex => applyWorkerRes res originalIndex w
          | none => res).length = res.length
    cases pidx.get? t with
    | none => rfl
    | some oi => exact applyWorkerRes_length res oi w

theorem mergeFold_no_hit (pidx : List ℕ) (i : ℕ) :
    ∀ (ws : List WorkerItemRes) (t : ℕ) (res : List (Option AnalysisResult)),
    (∀ k, pidx.get? (t + k) ≠ some i) →
    ((List.enumFrom t ws).foldl
        (fun r p =>
          match pidx.get? p.1 with
          | some originalIndex => applyWorkerRes r originalIndex p.2
          | none => r) res).get? i = res.get? i
  | [], _, _, _ => rfl
  | w :: rest, t, res, hnk => by
    rw [List.enumFrom_cons, List.foldl_cons,
        mergeFold_no_hit pidx i rest (t + 1) _ (fun k => by
          have h := hnk (k + 1)
          rwa [show t + (k + 1) = (t + 1) + k from by omega] at h)]
    show (match pidx.get? t with
          | some originalIndex => applyWorkerRes res originalIndex w
          | none => res).get? i = res.get? i
    cases hp : pidx.get? t with
    | none => rfl
    | some oi =>
      have hoi : oi ≠ i := fun h => hnk 0 (by rw [Nat.add_zero, hp, h])
      exact applyWorkerRes_ne res oi i w (Ne.symm hoi)

theorem mergeFold_hit (pidx : List ℕ) (i : ℕ) (hpw : pidx.Pairwise (· < ·)) :
    ∀ (ws : List WorkerItemRes) (t k : ℕ) (res : List (Option AnalysisResult)),
    pidx.get? (t + k) = some i → i < res.length →
    ((List.enumFrom t ws).foldl
        (fun r p =>
          match pidx.get? p.1 with
          | some originalIndex => applyWorkerRes r originalIndex p.2
          | none => r) res).get? i
      = match ws.get? k with
        | some (.arr (x :: _)) => some (some x)
        | some (.single r) => some (some r)
        | _ => res.get? i
  | [], _, k, res, _, _ => by cases k <;> rfl
  | w :: rest, t, 0, res, hk, hi => by
    have hk0 : pidx.get? t = some i := by rwa [Nat.add_zero] at hk
    rw [List.enumFrom_cons, List.foldl_cons]
    have hno : ∀ k2, pidx.get? ((t + 1) + k2) ≠ some i := fun k2 hbad =>
      pairwise_lt_get?_ne pidx hpw t ((t + 1) + k2) (by omega) i hk0 hbad
    have h1 := mergeFold_no_hit pidx i rest (t + 1)
      (match pidx.get? t with
       | some originalIndex => applyWorkerRes res originalIndex w
       | none => res) hno
    refine h1.trans ?_
    rw [hk0]
    cases w with
    | arr l =>
      cases l with
      | nil => rfl
      | cons x xs =>
        show (res.set i (some x)).get? i = some (some x)
        simp only [List.get?_eq_getElem?]
        exact List.getElem?_set_self hi
    | single r =>
      show (res.set i (some r)).get? i = some (some r)
      simp only [List.get?_eq_getElem?]
      exact List.getElem?_set_self hi
    | nullRes => rfl
  | w :: rest, t, k + 1, res, hk, hi => by
    rw [List.enumFrom_cons, List.foldl_cons]
    have hk2 : pidx.get? ((t + 1) + k) = some i := by
      rwa [show (t + 1) + k = t + (k + 1) from by omega]
    have hpres : (match pidx.get? t with
        | some originalIndex => applyWorkerRes res originalIndex w
        | none => res).get? i = res.get? i := by
      cases hp : pidx.get? t with
      | none => rfl
      | some oi =>
        have hoi : oi ≠ i := by
          intro h
          subst h
          exact pairwise_lt_get?_ne pidx hpw t (t + (k + 1)) (by omega) oi hp hk
        exact applyWorkerRes_ne res oi i w (Ne.symm hoi)
    have hlenp : (match pidx.get? t with
        | some originalIndex => applyWorkerRes res originalIndex w
        | none => res).length = res.length := by
      cases pidx.get? t with
      | none => rfl
      | some oi => exact applyWorkerRes_length res oi w
    have ih := mergeFold_hit pidx i hpw rest (t + 1) k
      (match pidx.get? t with
       | some originalIndex => applyWorkerRes res originalIndex w
       | none => res) hk2 (by rwa [hlenp])
    refine ih.trans ?_
    rw [show (w :: rest).get? (k + 1) = rest.get? k from rfl]
    cases rest.get? k with
    | none => exact hpres
    | some w2 =>
      cases w2 with
      | arr l => cases l with
        | nil => exact hpres
        | cons x xs => rfl
      | single r => rfl
      | nullRes => exact hpres

theorem mergeResults_length (results : List (Option AnalysisResult)) (pidx : List ℕ)
    (ws : List WorkerItemRes) :
    (mergeResults results pidx ws).length = results.length := by
  unfold mergeResults
  rw [show ws.enum = List.enumFrom 0 ws from rfl]
  exact mergeFold_length pidx ws 0 results

theorem mergeResults_get_not_mem (results : List (Option AnalysisResult))
    (pidx : List ℕ) (ws : List WorkerItemRes) (i : ℕ) (hmem : i ∉ pidx) :
    (mergeResults results pidx ws).get? i = results.get? i := by
  unfold mergeResults
  rw [show ws.enum = List.enumFrom 0 ws from rfl]
  exact mergeFold_no_hit pidx i ws 0 results (fun k hk => by
    rw [Nat.zero_add] at hk
    exact hmem (List.get?_mem hk))

theorem mergeResults_get_hit (results : List (Option AnalysisResult)) (pidx : List ℕ)
    (ws : List WorkerItemRes) (i k : ℕ) (hpw : pidx.Pairwise (· < ·))
    (hk : pidx.get? k = some i) (hi : i < results.length) :
    (mergeResults results pidx ws).get? i =
      match ws.get? k with
      | some (.arr (x :: _)) => some (some x)
      | some (.single r) => some (some r)
      | _ => results.get? i := by
  unfold mergeResults
  rw [show ws.enum = List.enumFrom 0 ws from rfl]
  exact mergeFold_hit pidx i hpw ws 0 k results (by rwa [Nat.zero_add]) hi

/-- C1 (amended): when every item of the batch carries a converted image
(`imageData` present), `analyzeBatch` returns a list of exactly the input's
length whose element at every index `i` is the analysis of input item `i`:
its fast-path text match when one exists, and otherwise the worker's answer
for the image submitted at that item's own rank among the slow items.
(Without that proviso the positions shift — see the counterexample.) -/
theorem analyzeBatch_preserves_length_and_positions (catalog : List CatalogItem)
    (worker : List String → List (List String) → Option (List WorkerItemRes))
    (items : List BatchItem)
    (h : ∀ it ∈ items, it.imageData.isSome = true) :
    (analyzeBatch catalog worker items).length = items.length ∧
    ∀ i, i < items.length →
      (analyzeBatch catalog worker items).get? i
        = some (expectedResultAt catalog worker items i) := by
  have henum : items.enum = List.enumFrom 0 items := rfl
  have hlen : (prepareBatch catalog items).results.length = items.length := by
    unfold prepareBatch
    rw [henum, prepFold_results_length]
    simp
  have hpidx : (prepareBatch catalog items).pendingIndices
      = (((List.enumFrom 0 items).filter fun p => isSlow catalog p.2)).map Prod.fst := by
    unfold prepareBatch
    rw [henum, prepFold_pendingIndices]
    rfl
  have himgs : (prepareBatch catalog items).pendingImages
      = (items.filter (isSlow catalog)).filterMap BatchItem.imageData := by
    unfold prepareBatch
    rw [henum, prepFold_pendingImages]
    rfl
  have hcands : (prepareBatch catalog items).pendingCandidatesList
      = (items.filter (isSlow catalog)).filterMap
          (fun j => j.imageData.map fun _ => candidatesFor catalog j.hintText) := by
    unfold prepareBatch
    rw [henum, prepFold_pendingCandidatesList]
    rfl
  have hres_at : ∀ i it, items.get? i = some it →
      (prepareBatch catalog items).results.get? i
        = match fastPath catalog it.hintText with
          | some r => some (some r)
          | none => some none := by
    intro i it hit
    obtain ⟨hilt, -⟩ := List.get?_eq_some.mp hit
    unfold prepareBatch
    rw [henum]
    have hfold := prepFold_results_at catalog items 0
      ⟨List.replicate items.length none, [], [], []⟩ i it hit (by simp)
    rw [Nat.zero_add] at hfold
    rw [hfold]
    cases fastPath catalog it.hintText with
    | some r => rfl
    | none =>
      show (List.replicate items.length (none : Option AnalysisResult)).get? i
        = some none
      simp [List.get?_eq_getElem?, List.getElem?_replicate, hilt]
  have hAB : analyzeBatch catalog worker items =
      if (prepareBatch catalog items).pendingIndices.isEmpty
      then (prepareBatch catalog items).results
      else
        match worker (prepareBatch catalog items).pendingImages
            (prepareBatch catalog items).pendingCandidatesList with
        | some workerResult =>
            mergeResults (prepareBatch catalog items).results
              (prepareBatch catalog items).pendingIndices workerResult
        | none => (prepareBatch catalog items).results := rfl
  constructor
  · rw [hAB]
    cases hE : (prepareBatch catalog items).pendingIndices.isEmpty with
    | true =>
      rw [if_pos rfl]
      exact hlen
    | false =>
      rw [if_neg (by simp)]
      cases hW : worker (prepareBatch catalog items).pendingImages
          (prepareBatch catalog items).pendingCandidatesList with
      | some ws =>
        show (mergeResults (prepareBatch catalog items).results
            (prepareBatch catalog items).pendingIndices ws).length = items.length
        rw [mergeResults_length]
        exact hlen
      | none => exact hlen
  · intro i hi
    have hex : ∃ it, items.get? i = some it := by
      cases hg : items.get? i with
      | none => exact absurd (List.get?_eq_none.mp hg) (by omega)
      | some it => exact ⟨it, rfl⟩
    obtain ⟨it, hit⟩ := hex
    have hmem_it : it ∈ items := List.get?_mem hit
    rw [hAB]
    cases hf : fastPath catalog it.hintText with
    | some r =>
      have hexp : expectedResultAt catalog worker items i = some r := by
        simp only [expectedResultAt, hit, hf]
      rw [hexp]
      have hslow : isSlow catalog it = false := by
        simp [isSlow, hf]
      have hnm : i ∉ (prepareBatch catalog items).pendingIndices := by
        rw [hpidx]
        have h0 := slowIndices_not_mem catalog items 0 i it hit hslow
        rwa [Nat.zero_add] at h0
      have hresi : (prepareBatch catalog items).results.get? i = some (some r) := by
        rw [hres_at i it hit, hf]
      cases hE : (prepareBatch catalog items).pendingIndices.isEmpty with
      | true =>
        rw [if_pos rfl]
        exact hresi
      | false =>
        rw [if_neg (by simp)]
        cases hW : worker (prepareBatch catalog items).pendingImages
            (prepareBatch catalog items).pendingCandidatesList with
        | some ws =>
          show (mergeResults (prepareBatch catalog items).results
              (prepareBatch catalog items).pendingIndices ws).get? i = some (some r)
          rw [mergeResults_get_not_mem _ _ _ _ hnm]
          exact hresi
        | none => exact hresi
    | none =>
      have hslow : isSlow catalog it = true := by
        simp [isSlow, hf]
      have hsome : it.imageData.isSome = true := h it hmem_it
      obtain ⟨b64, hb⟩ := Option.isSome_iff_exists.mp hsome
      have hrank := slowIndices_rank catalog items 0 i it hit hslow
      rw [Nat.zero_add] at hrank
      have hmem : i ∈ (prepareBatch catalog items).pendingIndices := by
        rw [hpidx]
        exact List.get?_mem hrank
      have hE : (prepareBatch catalog items).pendingIndices.isEmpty = false := by
        cases hE2 : (prepareBatch catalog items).pendingIndices.isEmpty with
        | false => rfl
        | true =>
          rw [List.isEmpty_iff] at hE2
          rw [hE2] at hmem
          cases hmem
      rw [hE, if_neg (by simp), himgs, hcands]
      have hKK : ((items.take i).filter
            fun j => isSlow catalog j && j.imageData.isSome).length
          = ((items.take i).filter (isSlow catalog)).length := by
        congr 1
        refine List.filter_congr fun j hj => ?_
        simp [h j (List.mem_of_mem_take hj)]
      have hexp : expectedResultAt catalog worker items i
          = match worker ((items.filter (isSlow catalog)).filterMap BatchItem.imageData)
              ((items.filter (isSlow catalog)).filterMap
                (fun j => j.imageData.map fun _ => candidatesFor catalog j.hintText)) with
            | none => none
            | some ws =>
              match ws.get? (((items.take i).filter (isSlow catalog)).length) with
              | some (.arr (x :: _)) => some x
              | some (.single r) => some r
              | _ => none := by
        simp only [expectedResultAt, hit, hf, hb, hKK]
      cases hW : worker ((items.filter (isSlow catalog)).filterMap BatchItem.imageData)
          ((items.filter (isSlow catalog)).filterMap
            (fun j => j.imageData.map fun _ => candidatesFor catalog j.hintText)) with
      | none =>
        have hexp2 : expectedResultAt catalog worker items i = none := by
          rw [hexp, hW]
        rw [hexp2]
        show (prepareBatch catalog items).results.get? i = some none
        rw [hres_at i it hit, hf]
      | some ws =>
        have hexp2 : expectedResultAt catalog worker items i
            = match ws.get? (((items.take i).filter (isSlow catalog)).length) with
              | some (.arr (x :: _)) => some x
              | some (.single r) => some r
              | _ => none := by
          rw [hexp, hW]
        rw [hexp2]
        show (mergeResults (prepareBatch catalog items).results
            (prepareBatch catalog items).pendingIndices ws).get? i = _
        rw [mergeResults_get_hit (prepareBatch catalog items).results
            (prepareBatch catalog items).pendingIndices ws i
            (((items.take i).filter (isSlow catalog)).length)
            (by rw [hpidx]; exact slowIndices_pairwise catalog items 0)
            (by rw [hpidx]; exact hrank)
            (by rw [hlen]; exact hi)]
        cases hws : ws.get? (((items.take i).filter (isSlow catalog)).length) with
        | none =>
          rw [hres_at i it hit, hf]
        | some w2 =>
          cases w2 with
          | arr l =>
            cases l with
            | nil => rw [hres_at i it hit, hf]
            | cons x xs => rfl
          | single r => rfl
          | nullRes => rw [hres_at i it hit, hf]

/-- C1 witness: the amended theorem at a two-item batch — one slow item
(hint too short for the fast path) and one exact fast-path hit — with both
images present and a worker answering one candidate array. -/
theorem analyzeBatch_preserves_length_and_positions_witness :
    (analyzeBatch [⟨"Bandage", []⟩] (fun _ _ => some [.arr [⟨"Nail", 7 / 10⟩]])
        [⟨some "i0", "zz"⟩, ⟨some "i1", "Bandage"⟩]).length = 2 ∧
    (analyzeBatch [⟨"Bandage", []⟩] (fun _ _ => some [.arr [⟨"Nail", 7 / 10⟩]])
        [⟨some "i0", "zz"⟩, ⟨some "i1", "Bandage"⟩]).get? 0
      = some (expectedResultAt [⟨"Bandage", []⟩]
          (fun _ _ => some [.arr [⟨"Nail", 7 / 10⟩]])
          [⟨some "i0", "zz"⟩, ⟨some "i1", "Bandage"⟩] 0) ∧
    (analyzeBatch [⟨"Bandage", []⟩] (fun _ _ => some [.arr [⟨"Nail", 7 / 10⟩]])
        [⟨some "i0", "zz"⟩, ⟨some "i1", "Bandage"⟩]).get? 1
      = some (expectedResultAt [⟨"Bandage", []⟩]
          (fun _ _ => some [.arr [⟨"Nail", 7 / 10⟩]])
          [⟨some "i0", "zz"⟩, ⟨some "i1", "Bandage"⟩] 1) := by
  have main := analyzeBatch_preserves_length_and_positions [⟨"Bandage", []⟩]
    (fun _ _ => some [.arr [⟨"Nail", 7 / 10⟩]])
    [⟨some "i0", "zz"⟩, ⟨some "i1", "Bandage"⟩] (by decide)
  exact ⟨main.1, main.2 0 (by decide), main.2 1 (by decide)⟩

/-- C5 (amended): with fewer than 3 surviving raw detections the grid
inference is indeed skipped — `fillMissingGridSlots` returns its input
unchanged — but `detectInventorySlots` does not return the raw detections
as such: the result still passes through the second NMS at threshold 0.5
and the row-major sort, so it is only guaranteed to be a sub-collection of
the raw detections (reordered, and possibly strictly smaller — see the
counterexample). -/
theorem detectInventorySlots_degenerate (imageData : ImageData) (threshold : ℕ)
    (hlt : (rawDetections imageData threshold).length < 3) :
    fillMissingGridSlots (rawDetections imageData threshold)
        ((imageData.width : ℚ)) ((imageData.height : ℚ))
      = rawDetections imageData threshold ∧
    ∀ r ∈ detectInventorySlots imageData threshold,
      r ∈ rawDetections imageData threshold := by
  have hfill : fillMissingGridSlots (rawDetections imageData threshold)
      ((imageData.width : ℚ)) ((imageData.height : ℚ))
      = rawDetections imageData threshold := by
    unfold fillMissingGridSlots
    rw [if_pos hlt]
  refine ⟨hfill, fun r hr => ?_⟩
  have hdet : detectInventorySlots imageData threshold
      = List.insertionSort (rowMajorLe ((imageData.height : ℚ)))
          (performNMS (fillMissingGridSlots (rawDetections imageData threshold)
            ((imageData.width : ℚ)) ((imageData.height : ℚ))) (5 / 10)) := rfl
  rw [hdet, hfill] at hr
  have hr2 : r ∈ performNMS (rawDetections imageData threshold) (5 / 10) :=
    (List.perm_insertionSort (rowMajorLe ((imageData.height : ℚ))) _).mem_iff.mp hr
  exact performNMS_subset _ _ r hr2

/-- C5 witness: the amended theorem at a 1×1 all-black image, which has no
raw detections at all. -/
theorem detectInventorySlots_degenerate_witness :
    (rawDetections ⟨1, 1, [0, 0, 0, 255]⟩ 30).length < 3 ∧
    (fillMissingGridSlots (rawDetections ⟨1, 1, [0, 0, 0, 255]⟩ 30)
        ((1 : ℕ) : ℚ) ((1 : ℕ) : ℚ)
      = rawDetections ⟨1, 1, [0, 0, 0, 255]⟩ 30 ∧
    ∀ r ∈ detectInventorySlots ⟨1, 1, [0, 0, 0, 255]⟩ 30,
      r ∈ rawDetections ⟨1, 1, [0, 0, 0, 255]⟩ 30) :=
  ⟨by decide, detectInventorySlots_degenerate ⟨1, 1, [0, 0, 0, 255]⟩ 30 (by decide)⟩

set_option maxRecDepth 200000 in
set_option maxHeartbeats 4000000 in
/-- C5 (counterexample): on `imgC5` exactly two raw detections survive —
fewer than 3, so grid inference is skipped — yet `detectInventorySlots`
does not return the raw detections: the raw list is ordered by descending
area (the larger right-hand rectangle first), while the returned list is
row-major sorted and puts the smaller left-hand rectangle first, so the
two lists differ. -/
theorem detectInventorySlots_not_raw :
    rawDetections imgC5 150 = [⟨9, 2, 4, 3⟩, ⟨2, 2, 2, 3⟩] ∧
    detectInventorySlots imgC5 150 = [⟨2, 2, 2, 3⟩, ⟨9, 2, 4, 3⟩] := by
  have hgray : toGrayscale imgC5.data 15 7 = grayC5 := by decide
  have hsobel : sobel grayC5 15 7 = sobelC5 := by decide
  have hbin : sobelC5.map (fun e => if 150 < e then 1 else 0) = binC5 := by decide
  have hclosed : morphClose binC5 15 7 5 = closedC5 := by decide
  have hblobs : collectBlobs (ccl closedC5 15 7) 15 7 = blobsC5 := by decide
  have hcand : detectCandidates imgC5 150 = [⟨2, 2, 2, 3⟩, ⟨9, 2, 4, 3⟩] := by
    show extractCandidates (collectBlobs (ccl (morphClose
        ((sobel (toGrayscale imgC5.data 15 7) 15 7).map
          fun e => if 150 < e then 1 else 0) 15 7 5) 15 7) 15 7)
        ((15 * 7 : ℕ) : ℚ)
      = [⟨2, 2, 2, 3⟩, ⟨9, 2, 4, 3⟩]
    rw [hgray, hsobel, hbin, hclosed, hblobs]
    decide
  have hraw : rawDetections imgC5 150 = [⟨9, 2, 4, 3⟩, ⟨2, 2, 2, 3⟩] := by
    unfold rawDetections
    rw [hcand]
    decide
  refine ⟨hraw, ?_⟩
  show List.insertionSort (rowMajorLe ((imgC5.height : ℚ)))
      (performNMS (fillMissingGridSlots (rawDetections imgC5 150)
        ((imgC5.width : ℚ)) ((imgC5.height : ℚ))) (5 / 10))
    = [⟨2, 2, 2, 3⟩, ⟨9, 2, 4, 3⟩]
  rw [hraw]
  decide

set_option maxRecDepth 1000000 in
set_option maxHeartbeats 4000000 in
/-- C8 (code bug): `detectInventorySlots` on `imgC8` — a raster whose edge
map has a single above-threshold pixel at (5, 5) — returns a rectangle of
width and height `-3`, which is neither positive nor within the image
bounds.  The blob accumulator initialises its running maxima (stored in
the `width`/`height` fields) to 1, so any single-pixel component at
`x, y ≥ 3` yields `w = 1 - x + 1 < 0`. -/
theorem detectInventorySlots_negative_dims :
    detectInventorySlots imgC8 230 = [⟨5, 5, -3, -3⟩] ∧
    ((⟨5, 5, -3, -3⟩ : Rect).width < 0 ∧ (⟨5, 5, -3, -3⟩ : Rect).height < 0) := by
  have hcand : detectCandidates imgC8 230 = [⟨5, 5, -3, -3⟩] := by
    decide
  refine ⟨?_, by decide, by decide⟩
  show List.insertionSort (rowMajorLe ((imgC8.height : ℚ)))
      (performNMS (fillMissingGridSlots
        (performNMS (detectCandidates imgC8 230) (6 / 10))
        ((imgC8.width : ℚ)) ((imgC8.height : ℚ))) (5 / 10))
    = [⟨5, 5, -3, -3⟩]
  rw [hcand]
  decide
